import Mathlib

/-!
# bfc : a brainfuck interpreter

A shallow embedding of `src/bfc.cpp` (class `State` and the driver loop of
`main`) together with proofs of properties of the interpreter.

Conventions of the embedding.

* The program text is a `List Char`: the characters of the C string before
  its terminating NUL.  Reading at index `length` yields the NUL, reading
  further is outside the string (undefined behaviour in C++).
* The memory array (`std::vector<char>`) is its `size` together with the
  map from index to cell; a cell (`char`) is the natural number in
  `[0, 256)` of its byte.  Only indices below `size` are inside the vector.
* `uint` values are natural numbers reduced modulo `2 ^ 32` where the
  source can wrap.
* Standard input and output are byte lists carried in the state.
* C++ undefined behaviour (out-of-range `array[data]`, `top`/`pop` of an
  empty stack, reading past the NUL) is the explicit result `undef`; a
  loop that was cut short by the fuel of the model is `timeout`.
-/

namespace Bfc

/-- Outcome of running a piece of the interpreter. -/
inductive Result (α : Type) where
  /-- Normal completion with a value. -/
  | ok : α → Result α
  /-- The C++ code has undefined behaviour. -/
  | undef : Result α
  /-- The fuel of the model ran out before the loop returned. -/
  | timeout : Result α
  deriving DecidableEq, Repr

/-- Sequencing of results. -/
def Result.bind {α β : Type} (r : Result α) (f : α → Result β) : Result β :=
  match r with
  | .ok a => f a
  | .undef => .undef
  | .timeout => .timeout

/-- Number of values of `uint` (32 bits). -/
def UINT : Nat := 2 ^ 32

/-- The NUL character terminating a C string. -/
def NUL : Char := Char.ofNat 0

/-- Fields `array`, `data`, `loop_stack` of class `State`, plus the two
standard streams of the process. -/
structure State where
  /-- Number of cells of the memory array, `array.size()`. -/
  size : Nat
  /-- Contents of the memory array, one byte value per index. -/
  array : Nat → Nat
  /-- Data pointer (`uint`). -/
  data : Nat
  /-- Loop offsets (`std::stack<uint>`), top of the stack first. -/
  loop_stack : List Nat
  /-- Bytes not yet read from standard input. -/
  stdin : List Nat
  /-- Bytes written to standard output so far, oldest first. -/
  stdout : List Nat

/-- Constructor `State(uint size = 30000)`: `size` zero cells, data pointer 0,
empty loop stack. -/
def State.init (size : Nat) (input : List Nat) : State :=
  { size := size, array := fun _ => 0, data := 0, loop_stack := [],
    stdin := input, stdout := [] }

/-- `State::next_cell`. -/
def State.next_cell (s : State) : State :=
  if s.data < s.size + 1 then { s with data := (s.data + 1) % UINT } else s

/-- `State::prev_cell`. -/
def State.prev_cell (s : State) : State :=
  if s.data > 0 then { s with data := s.data - 1 } else s

/-- The access `array[data]`: defined only inside the vector. -/
def State.cell (s : State) : Option Nat :=
  if s.data < s.size then some (s.array s.data) else none

/-- The assignment `array[data] = v` for an in-range data pointer. -/
def State.store (s : State) (v : Nat) : State :=
  { s with array := fun i => if i = s.data then v else s.array i }

/-- `State::incr_data`: `++array[data]`. -/
def State.incr_data (s : State) : Result State :=
  match s.cell with
  | none => .undef
  | some v => .ok (s.store ((v + 1) % 256))

/-- `State::decr_data`: `--array[data]`. -/
def State.decr_data (s : State) : Result State :=
  match s.cell with
  | none => .undef
  | some v => .ok (s.store ((v + 255) % 256))

/-- `State::output`: `putchar(array[data])`. -/
def State.output (s : State) : Result State :=
  match s.cell with
  | none => .undef
  | some v => .ok { s with stdout := s.stdout ++ [v] }

/-- `getchar()`: the next byte of standard input as an `int`, or `EOF = -1`
at end of input; and the input that remains. -/
def getchar (input : List Nat) : Int × List Nat :=
  match input with
  | [] => (-1, [])
  | b :: rest => (((b % 256 : Nat) : Int), rest)

/-- Conversion of an `int` to a cell (`char`): its low 8 bits. -/
def toCell (v : Int) : Nat := (v % 256).toNat

/-- `State::input`: `array[data] = getchar()`. -/
def State.input (s : State) : Result State :=
  match s.cell with
  | none => .undef
  | some _ =>
    let r := getchar s.stdin
    .ok { s.store (toCell r.1) with stdin := r.2 }

/-- The read `*ip` at offset `ip` of the NUL-terminated program text. -/
def fetch (prog : List Char) (ip : Nat) : Option Char :=
  if ip < prog.length then prog[ip]?
  else if ip = prog.length then some NUL
  else none

/-- The `while (true)` loop of `State::jump`, one iteration per unit of fuel;
`ip` is the offset of the pointer and `loop_counter` the local counter. -/
def jumpLoop (prog : List Char) : Nat → Nat → Nat → Result Nat
  | 0, _, _ => .timeout
  | fuel + 1, ip, loop_counter =>
    match fetch prog ip with
    | none => .undef
    | some instr =>
      if instr = '[' then jumpLoop prog fuel (ip + 1) ((loop_counter + 1) % UINT)
      else if instr = ']' then
        if loop_counter = 0 then .ok (ip + 1)
        else jumpLoop prog fuel (ip + 1) (loop_counter - 1)
      else jumpLoop prog fuel (ip + 1) loop_counter

/-- `State::jump`: the scan starts one past the opening bracket with counter
0.  Every iteration reads one character and at most `length - ip` characters
(NUL included) lie after offset `ip`, so the fuel given here is never
exhausted (`jump_ne_timeout`). -/
def jump (prog : List Char) (ip : Nat) : Result Nat :=
  jumpLoop prog (prog.length - ip + 1) (ip + 1) 0

/-- `State::exec`: one instruction at offset `ip`; returns the new state and
the new offset of `ip`. -/
def exec (prog : List Char) (s : State) (ip : Nat) : Result (State × Nat) :=
  match fetch prog ip with
  | none => .undef
  | some instr =>
    if instr = '>' then .ok (s.next_cell, ip + 1)
    else if instr = '<' then .ok (s.prev_cell, ip + 1)
    else if instr = '+' then s.incr_data.bind fun t => .ok (t, ip + 1)
    else if instr = '-' then s.decr_data.bind fun t => .ok (t, ip + 1)
    else if instr = '.' then s.output.bind fun t => .ok (t, ip + 1)
    else if instr = ',' then s.input.bind fun t => .ok (t, ip + 1)
    else if instr = '[' then
      match s.cell with
      | none => .undef
      | some v =>
        if v ≠ 0 then .ok ({ s with loop_stack := (ip % UINT) :: s.loop_stack }, ip + 1)
        else (jump prog ip).bind fun ip1 => .ok (s, ip1)
    else if instr = ']' then
      match s.cell with
      | none => .undef
      | some v =>
        if v ≠ 0 then
          match s.loop_stack with
          | [] => .undef
          | offset :: _ => .ok (s, offset + 1)
        else
          match s.loop_stack with
          | [] => .undef
          | _ :: rest => .ok ({ s with loop_stack := rest }, ip + 1)
    else .ok (s, ip)

/-- The `do { state.exec(prog, ip); } while (ip != prog + len);` loop of
`main`, one iteration per unit of fuel. -/
def driver (prog : List Char) (len : Nat) : Nat → State → Nat → Result (State × Nat)
  | 0, _, _ => .timeout
  | fuel + 1, s, ip =>
    match exec prog s ip with
    | .ok (t, ip1) => if ip1 ≠ len then driver prog len fuel t ip1 else .ok (t, ip1)
    | .undef => .undef
    | .timeout => .timeout

/-- The embedded sample program of `main`. -/
def helloworld : List Char :=
  "++++++++[>++++[>++>+++>+++>+<<<<-]>+>+>->>+[<]<-]>>.>---.+++++++..+++.>>.<-.<.+++.------.--------.>>+.>++.".toList

/-- The body of `main` on program text `prog`: a default-constructed state,
`len = strlen(prog)` as a `uint`, `ip = prog`, then the driver loop. -/
def main (prog : List Char) (input : List Nat) (fuel : Nat) : Result (State × Nat) :=
  driver prog (prog.length % UINT) fuel (State.init 30000 input) 0

/-! ## Vocabulary of the properties -/

/-- What a finished run shows to the outside: final offset of `ip`, bytes
written, loop stack, data pointer and the first two cells. -/
def observe (r : Result (State × Nat)) : Result (Nat × List Nat × List Nat × Nat × Nat × Nat) :=
  match r with
  | .ok (s, ip) => .ok (ip, s.stdout, s.loop_stack, s.data, s.array 0, s.array 1)
  | .undef => .undef
  | .timeout => .timeout

/-- The state `s` with its pending standard input replaced. -/
def State.withStdin (s : State) (input : List Nat) : State :=
  { s with stdin := input }

/-- Replace the pending input in the state of a result. -/
def setStdin (input : List Nat) (r : Result (State × Nat)) : Result (State × Nat) :=
  match r with
  | .ok (s, ip) => .ok (s.withStdin input, ip)
  | .undef => .undef
  | .timeout => .timeout

/-- Change of the bracket nesting made by one character. -/
def bracketDelta (c : Char) : Int :=
  if c = '[' then 1 else if c = ']' then -1 else 0

/-- Bracket nesting at offset `j` counted from offset `a`: the number of `[`
minus the number of `]` among the characters at the offsets `i` with
`a ≤ i < j`. -/
def nesting (prog : List Char) (a : Nat) : Nat → Int
  | 0 => 0
  | j + 1 => if a ≤ j then nesting prog a j + bracketDelta (prog.getD j NUL) else 0

/-- The `]` at offset `m` matches the `[` at offset `p`: it is the first `]`
after `p` at which the nesting counted from `p + 1` is zero. -/
def IsMatch (prog : List Char) (p m : Nat) : Prop :=
  p < m ∧ prog[m]? = some ']' ∧ nesting prog (p + 1) m = 0 ∧
    ∀ j, j < m → p < j → prog[j]? = some ']' → nesting prog (p + 1) j ≠ 0

/-- Offsets of the `[` still open just before offset `k`, innermost first,
found by a left-to-right scan of the text; `none` when a `]` before `k`
closes nothing. -/
def openStack (prog : List Char) : Nat → Option (List Nat)
  | 0 => some []
  | k + 1 =>
    match openStack prog k with
    | none => none
    | some st =>
      if prog.getD k NUL = '[' then some (k :: st)
      else if prog.getD k NUL = ']' then
        match st with
        | [] => none
        | _ :: rest => some rest
      else some st

/-- Balanced, properly nested brackets: every `]` closes a `[` and no `[`
is left open at the end of the text. -/
def Balanced (prog : List Char) : Prop :=
  openStack prog prog.length = some []

instance (prog : List Char) : Decidable (Balanced prog) := by
  unfold Balanced; infer_instance

/-- The loop stack of `s` records exactly the `[` open before offset `ip`,
and `ip` is inside the text or on its terminating NUL. -/
def StackInv (prog : List Char) (s : State) (ip : Nat) : Prop :=
  ip ≤ prog.length ∧ openStack prog ip = some s.loop_stack

/-- A fallible operation applied `n` times in a row. -/
def repeatOp (f : State → Result State) : Nat → State → Result State
  | 0, s => .ok s
  | n + 1, s => (f s).bind (repeatOp f n)

/-- The text holds a `[` at offset `p` that no `]` matches. -/
def UnmatchedOpen (prog : List Char) (p : Nat) : Prop :=
  prog[p]? = some '[' ∧ ∀ m, ¬ IsMatch prog p m

/-- A movement of the data pointer. -/
inductive Move where
  /-- A call of `next_cell`. -/
  | next : Move
  /-- A call of `prev_cell`. -/
  | prev : Move
  deriving DecidableEq, Repr

/-- The call that a movement stands for. -/
def applyMove (s : State) : Move → State
  | .next => s.next_cell
  | .prev => s.prev_cell

/-- A sequence of `next_cell` and `prev_cell` calls, first movement first. -/
def applyMoves (s : State) (ms : List Move) : State :=
  ms.foldl applyMove s

/-- States and offsets the driver loop of `main` passes through on `prog`
with the given input: the initial state at offset 0, and the result of `exec`
from each of them.  (At the end of the text `exec` reads the NUL and changes
nothing, so no state beyond those of the run is added.) -/
inductive Reachable (prog : List Char) (input : List Nat) : State → Nat → Prop where
  /-- The default-constructed state with `ip` at the start of the text. -/
  | init : Reachable prog input (State.init 30000 input) 0
  /-- One more iteration of the loop. -/
  | step {s t : State} {ip ip1 : Nat} : Reachable prog input s ip →
      exec prog s ip = .ok (t, ip1) → Reachable prog input t ip1

/-- The pair made of the `[` at offset `q` and its matching `]` lexically
encloses offset `ip`: the `[` is before `ip` and the `]` is not. -/
def Encloses (prog : List Char) (ip q : Nat) : Prop :=
  q < ip ∧ prog[q]? = some '[' ∧ ∃ m, m < prog.length ∧ ip ≤ m ∧ IsMatch prog q m

instance (prog : List Char) (p m : Nat) : Decidable (IsMatch prog p m) := by
  unfold IsMatch; infer_instance

instance (prog : List Char) (ip q : Nat) : Decidable (Encloses prog ip q) := by
  unfold Encloses; infer_instance

/-- Number of `[`...`]` pairs that lexically enclose offset `ip`. -/
def enclosingPairs (prog : List Char) (ip : Nat) : Nat :=
  ((List.range ip).filter fun q => decide (Encloses prog ip q)).length

/-! ## General lemmas on the driver -/

theorem observe_eq_ok {r : Result (State × Nat)} {ip d a0 a1 : Nat} {out st : List Nat}
    (h : observe r = .ok (ip, out, st, d, a0, a1)) :
    ∃ s, r = .ok (s, ip) ∧ s.stdout = out ∧ s.loop_stack = st ∧ s.data = d ∧
      s.array 0 = a0 ∧ s.array 1 = a1 := by
  cases r with
  | ok v =>
    obtain ⟨s, j⟩ := v
    simp only [observe, Result.ok.injEq, Prod.mk.injEq] at h
    obtain ⟨h1, h2, h3, h4, h5, h6⟩ := h
    exact ⟨s, by rw [h1], h2, h3, h4, h5, h6⟩
  | undef => simp [observe] at h
  | timeout => simp [observe] at h

/-- A run that finished keeps its result when given more fuel. -/
theorem driver_fuel_mono (prog : List Char) (len : Nat) (r : State × Nat) :
    ∀ (fuel k : Nat) (s : State) (ip : Nat),
      driver prog len fuel s ip = .ok r → driver prog len (fuel + k) s ip = .ok r := by
  intro fuel
  induction fuel with
  | zero => intro k s ip h; simp [driver] at h
  | succ n ih =>
    intro k s ip h
    have e : n + 1 + k = (n + k) + 1 := by omega
    rw [e]
    rw [driver] at h
    rw [driver]
    cases hx : exec prog s ip with
    | ok v =>
      obtain ⟨t, ip1⟩ := v
      rw [hx] at h
      simp only at h ⊢
      by_cases hc : ip1 = len
      · simpa [hc] using h
      · simp only [ne_eq, hc, not_false_eq_true, if_true] at h ⊢
        exact ih k t ip1 h
    | undef => rw [hx] at h; simp at h
    | timeout => rw [hx] at h; simp at h

theorem driver_fuel_le (prog : List Char) (len : Nat) (r : State × Nat)
    (n fuel : Nat) (s : State) (ip : Nat) (hle : n ≤ fuel)
    (h : driver prog len n s ip = .ok r) : driver prog len fuel s ip = .ok r := by
  have := driver_fuel_mono prog len r n (fuel - n) s ip h
  rwa [Nat.add_sub_cancel' hle] at this

theorem fetch_ne_of_not_mem {prog : List Char} {c : Char} (hc : c ∉ prog) (hn : c ≠ NUL)
    (ip : Nat) : fetch prog ip ≠ some c := by
  intro h
  unfold fetch at h
  split at h
  · exact hc (List.getElem?_mem h)
  · split at h
    · simp only [Option.some.injEq] at h; exact hn h.symm
    · simp at h

/-! ## `exec` by opcode -/

theorem exec_next (prog : List Char) (s : State) (ip : Nat) (h : fetch prog ip = some '>') :
    exec prog s ip = .ok (s.next_cell, ip + 1) := by
  simp [exec, h]

theorem exec_prev (prog : List Char) (s : State) (ip : Nat) (h : fetch prog ip = some '<') :
    exec prog s ip = .ok (s.prev_cell, ip + 1) := by
  simp [exec, h]

theorem exec_incr (prog : List Char) (s : State) (ip : Nat) (h : fetch prog ip = some '+') :
    exec prog s ip = s.incr_data.bind fun t => .ok (t, ip + 1) := by
  simp [exec, h]

theorem exec_decr (prog : List Char) (s : State) (ip : Nat) (h : fetch prog ip = some '-') :
    exec prog s ip = s.decr_data.bind fun t => .ok (t, ip + 1) := by
  simp [exec, h]

theorem exec_output (prog : List Char) (s : State) (ip : Nat) (h : fetch prog ip = some '.') :
    exec prog s ip = s.output.bind fun t => .ok (t, ip + 1) := by
  simp [exec, h]

theorem exec_input (prog : List Char) (s : State) (ip : Nat) (h : fetch prog ip = some ',') :
    exec prog s ip = s.input.bind fun t => .ok (t, ip + 1) := by
  simp [exec, h]

theorem exec_open_nonzero (prog : List Char) (s : State) (ip : Nat)
    (h : fetch prog ip = some '[') (hd : s.data < s.size) (hv : s.array s.data ≠ 0) :
    exec prog s ip = .ok ({ s with loop_stack := (ip % UINT) :: s.loop_stack }, ip + 1) := by
  simp [exec, h, State.cell, hd, hv]

theorem exec_open_zero (prog : List Char) (s : State) (ip : Nat)
    (h : fetch prog ip = some '[') (hd : s.data < s.size) (hv : s.array s.data = 0) :
    exec prog s ip = (jump prog ip).bind fun ip1 => .ok (s, ip1) := by
  simp [exec, h, State.cell, hd, hv]

theorem exec_close_nonzero (prog : List Char) (s : State) (ip : Nat)
    (h : fetch prog ip = some ']') (hd : s.data < s.size) (hv : s.array s.data ≠ 0) :
    exec prog s ip =
      match s.loop_stack with
      | [] => .undef
      | offset :: _ => .ok (s, offset + 1) := by
  simp [exec, h, State.cell, hd, hv]

theorem exec_close_zero (prog : List Char) (s : State) (ip : Nat)
    (h : fetch prog ip = some ']') (hd : s.data < s.size) (hv : s.array s.data = 0) :
    exec prog s ip =
      match s.loop_stack with
      | [] => .undef
      | _ :: rest => .ok ({ s with loop_stack := rest }, ip + 1) := by
  simp [exec, h, State.cell, hd, hv]

theorem exec_bracket_out_of_range (prog : List Char) (s : State) (ip : Nat) (c : Char)
    (h : fetch prog ip = some c) (hc : c = '[' ∨ c = ']') (hd : ¬ s.data < s.size) :
    exec prog s ip = .undef := by
  rcases hc with rfl | rfl <;> simp [exec, h, State.cell, hd]

theorem exec_other (prog : List Char) (s : State) (ip : Nat) (c : Char)
    (h : fetch prog ip = some c)
    (h1 : c ≠ '>') (h2 : c ≠ '<') (h3 : c ≠ '+') (h4 : c ≠ '-') (h5 : c ≠ '.')
    (h6 : c ≠ ',') (h7 : c ≠ '[') (h8 : c ≠ ']') :
    exec prog s ip = .ok (s, ip) := by
  simp [exec, h, h1, h2, h3, h4, h5, h6, h7, h8]

theorem exec_out_of_text (prog : List Char) (s : State) (ip : Nat) (h : fetch prog ip = none) :
    exec prog s ip = .undef := by
  simp [exec, h]

/-- An instruction other than `,` neither reads nor changes the pending
input. -/
theorem exec_withStdin (prog : List Char) (s : State) (ip : Nat) (input : List Nat)
    (hc : fetch prog ip ≠ some ',') :
    exec prog (s.withStdin input) ip = setStdin input (exec prog s ip) := by
  cases hf : fetch prog ip with
  | none => rw [exec_out_of_text _ _ _ hf, exec_out_of_text _ _ _ hf]; rfl
  | some instr =>
    have hne : instr ≠ ',' := by
      intro e; rw [hf, e] at hc; exact hc rfl
    by_cases h1 : instr = '>'
    · subst h1
      rw [exec_next _ _ _ hf, exec_next _ _ _ hf]
      simp only [setStdin, State.next_cell, State.withStdin]
      split <;> rfl
    by_cases h2 : instr = '<'
    · subst h2
      rw [exec_prev _ _ _ hf, exec_prev _ _ _ hf]
      simp only [setStdin, State.prev_cell, State.withStdin]
      split <;> rfl
    by_cases h3 : instr = '+'
    · subst h3
      rw [exec_incr _ _ _ hf, exec_incr _ _ _ hf]
      simp only [State.incr_data, State.cell, State.withStdin]
      by_cases hd : s.data < s.size <;> simp [hd, Result.bind, setStdin, State.store, State.withStdin]
    by_cases h4 : instr = '-'
    · subst h4
      rw [exec_decr _ _ _ hf, exec_decr _ _ _ hf]
      simp only [State.decr_data, State.cell, State.withStdin]
      by_cases hd : s.data < s.size <;> simp [hd, Result.bind, setStdin, State.store, State.withStdin]
    by_cases h5 : instr = '.'
    · subst h5
      rw [exec_output _ _ _ hf, exec_output _ _ _ hf]
      simp only [State.output, State.cell, State.withStdin]
      by_cases hd : s.data < s.size <;> simp [hd, Result.bind, setStdin, State.withStdin]
    by_cases hd : s.data < s.size
    · have hd2 : (s.withStdin input).data < (s.withStdin input).size := hd
      by_cases hv : s.array s.data = 0
      · have hv2 : (s.withStdin input).array (s.withStdin input).data = 0 := hv
        by_cases h7 : instr = '['
        · subst h7
          rw [exec_open_zero _ _ _ hf hd hv, exec_open_zero _ _ _ hf hd2 hv2]
          cases jump prog ip <;> rfl
        by_cases h8 : instr = ']'
        · subst h8
          rw [exec_close_zero _ _ _ hf hd hv, exec_close_zero _ _ _ hf hd2 hv2]
          cases hl : s.loop_stack <;> simp [hl, setStdin, State.withStdin]
        rw [exec_other _ _ _ _ hf h1 h2 h3 h4 h5 hne h7 h8,
          exec_other _ _ _ _ hf h1 h2 h3 h4 h5 hne h7 h8]
        rfl
      · have hv2 : (s.withStdin input).array (s.withStdin input).data ≠ 0 := hv
        by_cases h7 : instr = '['
        · subst h7
          rw [exec_open_nonzero _ _ _ hf hd hv, exec_open_nonzero _ _ _ hf hd2 hv2]
          rfl
        by_cases h8 : instr = ']'
        · subst h8
          rw [exec_close_nonzero _ _ _ hf hd hv, exec_close_nonzero _ _ _ hf hd2 hv2]
          cases hl : s.loop_stack <;> simp [hl, setStdin, State.withStdin]
        rw [exec_other _ _ _ _ hf h1 h2 h3 h4 h5 hne h7 h8,
          exec_other _ _ _ _ hf h1 h2 h3 h4 h5 hne h7 h8]
        rfl
    · have hd2 : ¬ (s.withStdin input).data < (s.withStdin input).size := hd
      by_cases h78 : instr = '[' ∨ instr = ']'
      · rw [exec_bracket_out_of_range _ _ _ _ hf h78 hd, exec_bracket_out_of_range _ _ _ _ hf h78 hd2]
        rfl
      · rw [not_or] at h78
        rw [exec_other _ _ _ _ hf h1 h2 h3 h4 h5 hne h78.1 h78.2,
          exec_other _ _ _ _ hf h1 h2 h3 h4 h5 hne h78.1 h78.2]
        rfl

/-- A program without `,` runs the same whatever the pending input. -/
theorem driver_withStdin (prog : List Char) (len : Nat) (input : List Nat)
    (hc : ∀ ip, fetch prog ip ≠ some ',') :
    ∀ (fuel : Nat) (s : State) (ip : Nat),
      driver prog len fuel (s.withStdin input) ip = setStdin input (driver prog len fuel s ip) := by
  intro fuel
  induction fuel with
  | zero => intro s ip; rfl
  | succ n ih =>
    intro s ip
    rw [driver, driver, exec_withStdin prog s ip input (hc ip)]
    cases hx : exec prog s ip with
    | ok v =>
      obtain ⟨t, ip1⟩ := v
      simp only [setStdin]
      by_cases he : ip1 = len
      · simp [he, setStdin]
      · simp only [ne_eq, he, not_false_eq_true, if_true]
        exact ih t ip1
    | undef => rfl
    | timeout => rfl

theorem observe_setStdin (input : List Nat) (r : Result (State × Nat)) :
    observe (setStdin input r) = observe r := by
  cases r with
  | ok v => rfl
  | undef => rfl
  | timeout => rfl

/-- The observation of a run of a program without `,` from the initial state
does not depend on the input, and stays the same with more fuel once the run
has finished. -/
theorem observe_main_of_closed (prog : List Char) (n : Nat)
    (v : Nat × List Nat × List Nat × Nat × Nat × Nat)
    (hc : ',' ∉ prog) (h : observe (main prog [] n) = .ok v)
    (input : List Nat) (fuel : Nat) (hle : n ≤ fuel) :
    observe (main prog input fuel) = .ok v := by
  have h1 : main prog input n = setStdin input (main prog [] n) :=
    driver_withStdin prog _ input (fetch_ne_of_not_mem hc (by decide)) n (State.init 30000 []) 0
  have h2 : observe (main prog input n) = .ok v := by rw [h1, observe_setStdin]; exact h
  cases hr : main prog input n with
  | ok r =>
    have := driver_fuel_le prog _ r n fuel (State.init 30000 input) 0 hle hr
    unfold main
    rw [this]
    rw [hr] at h2
    exact h2
  | undef => rw [hr] at h2; simp [observe] at h2
  | timeout => rw [hr] at h2; simp [observe] at h2

/-! ## The sample programs -/

/-- C1: the driver loop of `main` on the embedded `helloworld` program, from
the initial state (30000 zero cells, data pointer 0, empty loop stack, offset
0), halts (with any fuel from 906 on, whatever the pending input) at the
offset equal to the program length, and the bytes written by `.` are exactly
the 13 bytes of "Hello World!\n". -/
theorem helloworld_prints_hello_world (input : List Nat) (fuel : Nat) (hfuel : 906 ≤ fuel) :
    ∃ s, main helloworld input fuel = .ok (s, helloworld.length) ∧
      s.stdout = "Hello World!\n".toList.map Char.toNat ∧ s.stdout.length = 13 := by
  have h0 : observe (main helloworld [] 906) =
      .ok (106, [72, 101, 108, 108, 111, 32, 87, 111, 114, 108, 100, 33, 10], [], 6, 0, 0) := by
    decide!
  have h := observe_main_of_closed helloworld 906 _ (by decide) h0 input fuel hfuel
  obtain ⟨s, hs, hout, -⟩ := observe_eq_ok h
  exact ⟨s, hs, by rw [hout]; decide, by rw [hout]; rfl⟩

theorem helloworld_prints_hello_world_witness :
    906 ≤ 1000 ∧ ∃ s, main helloworld [] 1000 = .ok (s, helloworld.length) ∧
      s.stdout = "Hello World!\n".toList.map Char.toNat ∧ s.stdout.length = 13 :=
  ⟨by decide, helloworld_prints_hello_world [] 1000 (by decide)⟩

/-! ## The forward scan -/

theorem fetch_of_le {prog : List Char} {j : Nat} (h : j ≤ prog.length) :
    fetch prog j = some (prog.getD j NUL) := by
  unfold fetch
  by_cases hlt : j < prog.length
  · simp [hlt, List.getD, List.getElem?_eq_getElem hlt]
  · have e : j = prog.length := by omega
    simp [e, List.getD]

theorem fetch_of_gt {prog : List Char} {j : Nat} (h : prog.length < j) :
    fetch prog j = none := by
  unfold fetch
  have h1 : ¬ j < prog.length := by omega
  have h2 : ¬ j = prog.length := by omega
  simp [h1, h2]

theorem getD_of_getElem? {prog : List Char} {j : Nat} {c : Char} (h : prog[j]? = some c) :
    prog.getD j NUL = c := by
  simp [List.getD, h]

theorem getElem?_of_lt {prog : List Char} {j : Nat} (h : j < prog.length) :
    prog[j]? = some (prog.getD j NUL) := by
  simp [List.getD, List.getElem?_eq_getElem h]

theorem nesting_succ (prog : List Char) (a j : Nat) (h : a ≤ j) :
    nesting prog a (j + 1) = nesting prog a j + bracketDelta (prog.getD j NUL) := by
  simp [nesting, h]

theorem nesting_of_le (prog : List Char) {a j : Nat} (h : j ≤ a) : nesting prog a j = 0 := by
  cases j with
  | zero => rfl
  | succ k =>
    have : ¬ a ≤ k := by omega
    simp [nesting, this]

theorem bracketDelta_le (c : Char) : bracketDelta c ≤ 1 := by
  unfold bracketDelta
  split
  · exact le_refl _
  · split <;> decide

theorem bracketDelta_other {c : Char} (h1 : c ≠ '[') (h2 : c ≠ ']') : bracketDelta c = 0 := by
  simp [bracketDelta, h1, h2]

theorem nesting_le (prog : List Char) (a : Nat) : ∀ j : Nat, nesting prog a j ≤ (j : Int)
  | 0 => by simp [nesting]
  | j + 1 => by
    unfold nesting
    have ih := nesting_le prog a j
    have hb := bracketDelta_le (prog.getD j NUL)
    split
    · push_cast; omega
    · push_cast; omega

/-- The scan loop started inside the loop body, with the counter equal to the
nesting reached so far, returns one past the matching `]`. -/
theorem jumpLoop_to_match (prog : List Char) (p m : Nat) (hlen : prog.length < UINT)
    (hm : IsMatch prog p m) :
    ∀ (d j c fuel : Nat), j + d = m → p < j → (c : Int) = nesting prog (p + 1) j →
      d < fuel → jumpLoop prog fuel j c = .ok (m + 1) := by
  obtain ⟨hpm, hclose, hzero, hfirst⟩ := hm
  have hmlt : m < prog.length := by
    by_contra hcon
    rw [List.getElem?_eq_none (by omega)] at hclose
    exact absurd hclose (by simp)
  intro d
  induction d with
  | zero =>
    intro j c fuel hj _ hc hfuel
    have e : j = m := by omega
    subst e
    obtain ⟨f, rfl⟩ : ∃ f, fuel = f + 1 := ⟨fuel - 1, by omega⟩
    have hc0 : c = 0 := by rw [hzero] at hc; exact_mod_cast hc
    have hf : fetch prog j = some ']' := by
      rw [fetch_of_le (Nat.le_of_lt hmlt), getD_of_getElem? hclose]
    simp [jumpLoop, hf, hc0]
  | succ d ih =>
    intro j c fuel hj hpj hc hfuel
    obtain ⟨f, rfl⟩ : ∃ f, fuel = f + 1 := ⟨fuel - 1, by omega⟩
    have hjm : j < m := by omega
    have hjl : j < prog.length := by omega
    have hf : fetch prog j = some (prog.getD j NUL) := fetch_of_le (Nat.le_of_lt hjl)
    have hstep := nesting_succ prog (p + 1) j (by omega)
    have hbound := nesting_le prog (p + 1) j
    have hU : UINT = 4294967296 := by decide
    rw [jumpLoop]
    simp only [hf]
    by_cases h1 : prog.getD j NUL = '['
    · have hd : bracketDelta (prog.getD j NUL) = 1 := by rw [h1]; decide
      have hmod : (c + 1) % UINT = c + 1 := Nat.mod_eq_of_lt (by omega)
      simp only [h1, if_true, hmod]
      exact ih (j + 1) (c + 1) f (by omega) (by omega) (by rw [hstep, hd]; push_cast; omega)
        (by omega)
    · by_cases h2 : prog.getD j NUL = ']'
      · have hd : bracketDelta (prog.getD j NUL) = -1 := by rw [h2]; decide
        have hget : prog[j]? = some ']' := by rw [getElem?_of_lt hjl, h2]
        have hne : nesting prog (p + 1) j ≠ 0 := hfirst j hjm hpj hget
        have hc0 : c ≠ 0 := by
          intro e; apply hne; rw [← hc, e]; rfl
        have hne2 : (']' : Char) ≠ '[' := by decide
        simp only [h2, hne2, if_false, if_true, hc0]
        exact ih (j + 1) (c - 1) f (by omega) (by omega) (by rw [hstep, hd]; omega) (by omega)
      · have hd : bracketDelta (prog.getD j NUL) = 0 := bracketDelta_other h1 h2
        simp only [h1, h2, if_false]
        exact ih (j + 1) c f (by omega) (by omega) (by rw [hstep, hd]; omega) (by omega)

/-- C2: for every program (whose text fits in a `uint` offset, as `main`
assumes) and every offset `p` holding `[` whose matching `]` (the first `]`
after `p` at which the nesting counted from `p + 1` is zero) is at offset `m`,
the forward scan `State::jump` started with `ip` at `p` terminates and leaves
`ip` at exactly `m + 1`. -/
theorem jump_reaches_match (prog : List Char) (p m : Nat) (hlen : prog.length < UINT)
    (_hopen : prog[p]? = some '[') (hm : IsMatch prog p m) :
    jump prog p = .ok (m + 1) := by
  have hpm : p < m := hm.1
  have hmlt : m < prog.length := by
    by_contra hcon
    have := hm.2.1
    rw [List.getElem?_eq_none (by omega)] at this
    exact absurd this (by simp)
  unfold jump
  refine jumpLoop_to_match prog p m hlen hm (m - (p + 1)) (p + 1) 0 _ (by omega) (by omega) ?_
    (by omega)
  rw [nesting_of_le prog (le_refl _)]
  rfl

theorem jump_reaches_match_witness :
    "+[>[-]<-]+".toList.length < UINT ∧ "+[>[-]<-]+".toList[1]? = some '[' ∧
      IsMatch "+[>[-]<-]+".toList 1 8 ∧ jump "+[>[-]<-]+".toList 1 = .ok 9 :=
  ⟨by decide, by decide, by decide,
    jump_reaches_match "+[>[-]<-]+".toList 1 8 (by decide) (by decide) (by decide)⟩

/-! ## A comment character -/

/-- A step that changes neither the state nor the offset repeats for ever. -/
theorem driver_stuck (prog : List Char) (len : Nat) (s : State) (ip : Nat)
    (h : exec prog s ip = .ok (s, ip)) (hne : ip ≠ len) :
    ∀ fuel, driver prog len fuel s ip = .timeout := by
  intro fuel
  induction fuel with
  | zero => rfl
  | succ n ih =>
    rw [driver, h]
    simp only [ne_eq, hne, not_false_eq_true, if_true]
    exact ih

/-- C3 (the code at the failing input): on the one-character program "a",
`exec` at offset 0 returns the state unchanged and leaves `ip` at offset 0
instead of 1, so the driver loop of `main` never terminates (no amount of
fuel lets it finish). -/
theorem exec_comment_does_not_advance :
    exec ['a'] (State.init 30000 []) 0 = .ok (State.init 30000 [], 0) ∧
      ∀ fuel, main ['a'] [] fuel = .timeout := by
  have h : exec ['a'] (State.init 30000 []) 0 = .ok (State.init 30000 [], 0) :=
    exec_other ['a'] _ 0 'a' (by decide) (by decide) (by decide) (by decide) (by decide)
      (by decide) (by decide) (by decide) (by decide)
  exact ⟨h, driver_stuck ['a'] _ _ 0 h (by decide)⟩

/-! ## The loop stack follows the brackets of the text -/

theorem openStack_succ_isSome {prog : List Char} {k : Nat} {st : List Nat}
    (h : openStack prog (k + 1) = some st) : ∃ st0, openStack prog k = some st0 := by
  rw [openStack] at h
  cases h0 : openStack prog k with
  | none => rw [h0] at h; simp at h
  | some st0 => exact ⟨st0, rfl⟩

theorem openStack_isSome_of_le {prog : List Char} {n : Nat} {st : List Nat}
    (h : openStack prog n = some st) : ∀ k, k ≤ n → ∃ st0, openStack prog k = some st0 := by
  induction n generalizing st with
  | zero => intro k hk; have : k = 0 := by omega
            subst this; exact ⟨st, h⟩
  | succ n ih =>
    intro k hk
    by_cases e : k = n + 1
    · subst e; exact ⟨st, h⟩
    · obtain ⟨st0, h0⟩ := openStack_succ_isSome h
      exact ih h0 k (by omega)

theorem openStack_open {prog : List Char} {k : Nat} {st : List Nat}
    (h : openStack prog k = some st) (hc : prog.getD k NUL = '[') :
    openStack prog (k + 1) = some (k :: st) := by
  rw [openStack, h]; simp only [hc, ↓reduceIte]

theorem openStack_close {prog : List Char} {k q : Nat} {st : List Nat}
    (h : openStack prog k = some (q :: st)) (hc : prog.getD k NUL = ']') :
    openStack prog (k + 1) = some st := by
  have hne : (']' : Char) ≠ '[' := by decide
  rw [openStack, h]; simp only [hc, hne, ↓reduceIte]

theorem openStack_close_nil {prog : List Char} {k : Nat}
    (h : openStack prog k = some []) (hc : prog.getD k NUL = ']') :
    openStack prog (k + 1) = none := by
  have hne : (']' : Char) ≠ '[' := by decide
  rw [openStack, h]; simp only [hc, hne, ↓reduceIte]

theorem openStack_other {prog : List Char} {k : Nat} {st : List Nat}
    (h : openStack prog k = some st) (h1 : prog.getD k NUL ≠ '[') (h2 : prog.getD k NUL ≠ ']') :
    openStack prog (k + 1) = some st := by
  rw [openStack, h]; simp only [h1, h2, ↓reduceIte]

theorem openStack_length_le (prog : List Char) :
    ∀ (k : Nat) (st : List Nat), openStack prog k = some st → st.length ≤ k := by
  intro k
  induction k with
  | zero => intro st h; simp [openStack] at h; subst h; simp
  | succ k ih =>
    intro st h
    obtain ⟨st0, h0⟩ := openStack_succ_isSome h
    have hl := ih st0 h0
    by_cases h1 : prog.getD k NUL = '['
    · rw [openStack_open h0 h1] at h
      simp only [Option.some.injEq] at h; subst h
      simp only [List.length_cons]; omega
    · by_cases h2 : prog.getD k NUL = ']'
      · cases st0 with
        | nil => rw [openStack_close_nil h0 h2] at h; simp at h
        | cons q r =>
          rw [openStack_close h0 h2] at h
          simp only [Option.some.injEq] at h; subst h
          simp only [List.length_cons] at hl; omega
      · rw [openStack_other h0 h1 h2] at h
        simp only [Option.some.injEq] at h; subst h; omega

/-- The innermost open bracket recorded before offset `k` is a `[` at a
smaller offset, and the brackets open before it are the rest of the record. -/
theorem openStack_top (prog : List Char) :
    ∀ (k q : Nat) (t : List Nat), openStack prog k = some (q :: t) →
      q < k ∧ prog.getD q NUL = '[' ∧ openStack prog q = some t := by
  intro k
  induction k using Nat.strong_induction_on with
  | _ k ih =>
    intro q t h
    cases k with
    | zero => simp [openStack] at h
    | succ k =>
      obtain ⟨st0, h0⟩ := openStack_succ_isSome h
      by_cases h1 : prog.getD k NUL = '['
      · rw [openStack_open h0 h1] at h
        simp only [Option.some.injEq, List.cons.injEq] at h
        obtain ⟨rfl, rfl⟩ := h
        exact ⟨Nat.lt_succ_self _, h1, h0⟩
      · by_cases h2 : prog.getD k NUL = ']'
        · cases st0 with
          | nil => rw [openStack_close_nil h0 h2] at h; simp at h
          | cons x r =>
            rw [openStack_close h0 h2] at h
            simp only [Option.some.injEq] at h; subst h
            obtain ⟨hx, -, hxs⟩ := ih k (Nat.lt_succ_self _) x _ h0
            obtain ⟨hq, hqc, hqs⟩ := ih x (by omega) q t hxs
            exact ⟨by omega, hqc, hqs⟩
        · rw [openStack_other h0 h1 h2] at h
          simp only [Option.some.injEq] at h; subst h
          obtain ⟨hq, hqc, hqs⟩ := ih k (Nat.lt_succ_self _) q t h0
          exact ⟨by omega, hqc, hqs⟩

theorem lt_length_of_getD_ne {prog : List Char} {ip : Nat} (h : prog.getD ip NUL ≠ NUL) :
    ip < prog.length := by
  by_contra hcon
  apply h
  simp [List.getD, List.getElem?_eq_none (Nat.le_of_not_lt hcon)]

/-- In a balanced program the scan loop, started where the brackets open
since the `[` at `p` are `xs`, returns one past a `]` inside the text, where
the open brackets are those open before `p`. -/
theorem jumpLoop_balanced (prog : List Char) (p : Nat) (st : List Nat)
    (hlen : prog.length < UINT) (hbal : Balanced prog) :
    ∀ (n j : Nat) (xs : List Nat) (fuel : Nat), prog.length - j = n → j ≤ prog.length →
      openStack prog j = some (xs ++ p :: st) → n < fuel →
      ∃ m, j ≤ m ∧ m < prog.length ∧ jumpLoop prog fuel j xs.length = .ok (m + 1) ∧
        openStack prog (m + 1) = some st := by
  intro n
  induction n with
  | zero =>
    intro j xs fuel hn hj hs _
    have e : j = prog.length := by omega
    subst e
    unfold Balanced at hbal
    rw [hbal] at hs
    simp at hs
  | succ n ih =>
    intro j xs fuel hn hj hs hfuel
    have hjl : j < prog.length := by omega
    obtain ⟨f, rfl⟩ : ∃ f, fuel = f + 1 := ⟨fuel - 1, by omega⟩
    have hf : fetch prog j = some (prog.getD j NUL) := fetch_of_le hj
    have hlenle := openStack_length_le prog j _ hs
    simp only [List.length_append, List.length_cons] at hlenle
    have hU : UINT = 4294967296 := by decide
    rw [jumpLoop]
    simp only [hf]
    by_cases h1 : prog.getD j NUL = '['
    · have hmod : (xs.length + 1) % UINT = (j :: xs).length := by
        rw [Nat.mod_eq_of_lt (by omega)]; rfl
      simp only [h1, if_true, hmod]
      obtain ⟨m, hm1, hm2, hm3, hm4⟩ :=
        ih (j + 1) (j :: xs) f (by omega) (by omega) (openStack_open hs h1) (by omega)
      exact ⟨m, by omega, hm2, hm3, hm4⟩
    · by_cases h2 : prog.getD j NUL = ']'
      · have hne : (']' : Char) ≠ '[' := by decide
        simp only [h2, hne, if_false, if_true]
        cases xs with
        | nil =>
          refine ⟨j, le_refl _, hjl, by simp, ?_⟩
          exact openStack_close hs h2
        | cons x r =>
          have hs2 : openStack prog (j + 1) = some (r ++ p :: st) := openStack_close hs h2
          obtain ⟨m, hm1, hm2, hm3, hm4⟩ := ih (j + 1) r f (by omega) (by omega) hs2 (by omega)
          refine ⟨m, by omega, hm2, ?_, hm4⟩
          simpa using hm3
      · simp only [h1, h2, if_false]
        obtain ⟨m, hm1, hm2, hm3, hm4⟩ :=
          ih (j + 1) xs f (by omega) (by omega) (openStack_other hs h1 h2) (by omega)
        exact ⟨m, by omega, hm2, hm3, hm4⟩

/-- In a balanced program `State::jump` at a `[` returns one past a `]` at
which the open brackets are again those open before the `[`. -/
theorem jump_balanced (prog : List Char) (p : Nat) (st : List Nat)
    (hlen : prog.length < UINT) (hbal : Balanced prog)
    (hs : openStack prog p = some st) (hc : prog.getD p NUL = '[') :
    ∃ m, p < m ∧ m < prog.length ∧ jump prog p = .ok (m + 1) ∧
      openStack prog (m + 1) = some st := by
  have hp : p < prog.length := lt_length_of_getD_ne (by rw [hc]; decide)
  obtain ⟨m, hm1, hm2, hm3, hm4⟩ :=
    jumpLoop_balanced prog p st hlen hbal (prog.length - (p + 1)) (p + 1) [] (prog.length - p + 1)
      rfl (by omega) (openStack_open hs hc) (by omega)
  exact ⟨m, by omega, hm2, hm3, hm4⟩

/-- The six basic opcodes advance `ip` by one and keep the loop stack. -/
theorem exec_basic (prog : List Char) (s t : State) (ip ip1 : Nat) (c : Char)
    (hf : fetch prog ip = some c)
    (hc : c = '>' ∨ c = '<' ∨ c = '+' ∨ c = '-' ∨ c = '.' ∨ c = ',')
    (h : exec prog s ip = .ok (t, ip1)) : t.loop_stack = s.loop_stack ∧ ip1 = ip + 1 := by
  rcases hc with rfl | rfl | rfl | rfl | rfl | rfl
  · rw [exec_next _ _ _ hf] at h
    simp only [Result.ok.injEq, Prod.mk.injEq] at h
    obtain ⟨rfl, rfl⟩ := h
    refine ⟨?_, rfl⟩
    unfold State.next_cell; split <;> rfl
  · rw [exec_prev _ _ _ hf] at h
    simp only [Result.ok.injEq, Prod.mk.injEq] at h
    obtain ⟨rfl, rfl⟩ := h
    refine ⟨?_, rfl⟩
    unfold State.prev_cell; split <;> rfl
  · rw [exec_incr _ _ _ hf] at h
    unfold State.incr_data at h
    cases hcell : s.cell with
    | none => rw [hcell] at h; simp [Result.bind] at h
    | some v =>
      rw [hcell] at h
      simp only [Result.bind, Result.ok.injEq, Prod.mk.injEq] at h
      obtain ⟨rfl, rfl⟩ := h
      exact ⟨rfl, rfl⟩
  · rw [exec_decr _ _ _ hf] at h
    unfold State.decr_data at h
    cases hcell : s.cell with
    | none => rw [hcell] at h; simp [Result.bind] at h
    | some v =>
      rw [hcell] at h
      simp only [Result.bind, Result.ok.injEq, Prod.mk.injEq] at h
      obtain ⟨rfl, rfl⟩ := h
      exact ⟨rfl, rfl⟩
  · rw [exec_output _ _ _ hf] at h
    unfold State.output at h
    cases hcell : s.cell with
    | none => rw [hcell] at h; simp [Result.bind] at h
    | some v =>
      rw [hcell] at h
      simp only [Result.bind, Result.ok.injEq, Prod.mk.injEq] at h
      obtain ⟨rfl, rfl⟩ := h
      exact ⟨rfl, rfl⟩
  · rw [exec_input _ _ _ hf] at h
    unfold State.input at h
    cases hcell : s.cell with
    | none => rw [hcell] at h; simp [Result.bind] at h
    | some v =>
      rw [hcell] at h
      simp only [Result.bind, Result.ok.injEq, Prod.mk.injEq] at h
      obtain ⟨rfl, rfl⟩ := h
      exact ⟨rfl, rfl⟩

/-- One `exec` of a balanced program keeps the loop stack equal to the record
of the brackets open before `ip`. -/
theorem exec_preserves_StackInv (prog : List Char) (hlen : prog.length < UINT)
    (hbal : Balanced prog) (s t : State) (ip ip1 : Nat) (hinv : StackInv prog s ip)
    (h : exec prog s ip = .ok (t, ip1)) : StackInv prog t ip1 := by
  obtain ⟨hip, hst⟩ := hinv
  have hf : fetch prog ip = some (prog.getD ip NUL) := fetch_of_le hip
  have hU : UINT = 4294967296 := by decide
  by_cases hb : prog.getD ip NUL = '>' ∨ prog.getD ip NUL = '<' ∨ prog.getD ip NUL = '+' ∨
      prog.getD ip NUL = '-' ∨ prog.getD ip NUL = '.' ∨ prog.getD ip NUL = ','
  · obtain ⟨h1, h2⟩ := exec_basic prog s t ip ip1 _ hf hb h
    have hlt : ip < prog.length :=
      lt_length_of_getD_ne (by rcases hb with e | e | e | e | e | e <;> rw [e] <;> decide)
    have hn1 : prog.getD ip NUL ≠ '[' := by
      rcases hb with e | e | e | e | e | e <;> rw [e] <;> decide
    have hn2 : prog.getD ip NUL ≠ ']' := by
      rcases hb with e | e | e | e | e | e <;> rw [e] <;> decide
    subst h2
    exact ⟨hlt, by rw [h1]; exact openStack_other hst hn1 hn2⟩
  by_cases h7 : prog.getD ip NUL = '['
  · have hlt : ip < prog.length := lt_length_of_getD_ne (by rw [h7]; decide)
    rw [h7] at hf
    by_cases hd : s.data < s.size
    · by_cases hv : s.array s.data = 0
      · obtain ⟨m, hm1, hm2, hm3, hm4⟩ := jump_balanced prog ip _ hlen hbal hst h7
        rw [exec_open_zero _ _ _ hf hd hv, hm3] at h
        simp only [Result.bind, Result.ok.injEq, Prod.mk.injEq] at h
        obtain ⟨rfl, rfl⟩ := h
        exact ⟨hm2, hm4⟩
      · rw [exec_open_nonzero _ _ _ hf hd hv] at h
        simp only [Result.ok.injEq, Prod.mk.injEq] at h
        obtain ⟨rfl, rfl⟩ := h
        refine ⟨hlt, ?_⟩
        simp only
        rw [Nat.mod_eq_of_lt (by omega)]
        exact openStack_open hst h7
    · rw [exec_bracket_out_of_range _ _ _ _ hf (Or.inl rfl) hd] at h
      simp at h
  by_cases h8 : prog.getD ip NUL = ']'
  · have hlt : ip < prog.length := lt_length_of_getD_ne (by rw [h8]; decide)
    rw [h8] at hf
    by_cases hd : s.data < s.size
    · cases hl : s.loop_stack with
      | nil =>
        by_cases hv : s.array s.data = 0
        · rw [exec_close_zero _ _ _ hf hd hv, hl] at h; simp at h
        · rw [exec_close_nonzero _ _ _ hf hd hv, hl] at h; simp at h
      | cons q rest =>
        rw [hl] at hst
        by_cases hv : s.array s.data = 0
        · rw [exec_close_zero _ _ _ hf hd hv, hl] at h
          simp only [Result.ok.injEq, Prod.mk.injEq] at h
          obtain ⟨rfl, rfl⟩ := h
          exact ⟨hlt, openStack_close hst h8⟩
        · rw [exec_close_nonzero _ _ _ hf hd hv, hl] at h
          simp only [Result.ok.injEq, Prod.mk.injEq] at h
          obtain ⟨rfl, rfl⟩ := h
          obtain ⟨hq, hqc, hqs⟩ := openStack_top prog ip q rest hst
          refine ⟨by omega, ?_⟩
          rw [hl]
          exact openStack_open hqs hqc
    · rw [exec_bracket_out_of_range _ _ _ _ hf (Or.inr rfl) hd] at h
      simp at h
  · simp only [not_or] at hb
    obtain ⟨c1, c2, c3, c4, c5, c6⟩ := hb
    rw [exec_other _ _ _ _ hf c1 c2 c3 c4 c5 c6 h7 h8] at h
    simp only [Result.ok.injEq, Prod.mk.injEq] at h
    obtain ⟨rfl, rfl⟩ := h
    exact ⟨hip, hst⟩

/-- When the driver loop finishes, `ip` is at `len` and the loop stack still
records the brackets open there. -/
theorem driver_preserves_StackInv (prog : List Char) (len : Nat) (hlen : prog.length < UINT)
    (hbal : Balanced prog) :
    ∀ (fuel : Nat) (s t : State) (ip ip1 : Nat), StackInv prog s ip →
      driver prog len fuel s ip = .ok (t, ip1) → StackInv prog t ip1 ∧ ip1 = len := by
  intro fuel
  induction fuel with
  | zero => intro s t ip ip1 _ h; simp [driver] at h
  | succ n ih =>
    intro s t ip ip1 hinv h
    rw [driver] at h
    cases hx : exec prog s ip with
    | ok v =>
      obtain ⟨u, ip2⟩ := v
      rw [hx] at h
      have hinv2 := exec_preserves_StackInv prog hlen hbal s u ip ip2 hinv hx
      by_cases he : ip2 = len
      · simp only [he, ne_eq, not_true_eq_false, if_false, Result.ok.injEq, Prod.mk.injEq] at h
        obtain ⟨rfl, rfl⟩ := h
        exact ⟨he ▸ hinv2, rfl⟩
      · simp only [ne_eq, he, not_false_eq_true, if_true] at h
        exact ih u t ip2 ip1 hinv2 h
    | undef => rw [hx] at h; simp at h
    | timeout => rw [hx] at h; simp at h

/-- C4: for every program with balanced, properly nested brackets (whose
text fits in a `uint` offset), if the driver loop of `main`, started from the
initial state (empty loop stack, offset 0), finishes, which it does exactly
when `ip` reaches the length of the program, then the loop stack is empty at
that point. -/
theorem balanced_run_ends_with_empty_stack (prog : List Char) (input : List Nat) (fuel : Nat)
    (s : State) (ip : Nat) (hlen : prog.length < UINT) (hbal : Balanced prog)
    (hrun : main prog input fuel = .ok (s, ip)) :
    ip = prog.length ∧ s.loop_stack = [] := by
  have hinit : StackInv prog (State.init 30000 input) 0 := ⟨Nat.zero_le _, rfl⟩
  obtain ⟨⟨_, hst⟩, hip⟩ :=
    driver_preserves_StackInv prog _ hlen hbal fuel _ s 0 ip hinit hrun
  rw [Nat.mod_eq_of_lt hlen] at hip
  subst hip
  unfold Balanced at hbal
  rw [hbal] at hst
  simp only [Option.some.injEq] at hst
  exact ⟨rfl, hst.symm⟩

theorem balanced_run_ends_with_empty_stack_witness :
    "[-]++[>+<-]>.".toList.length < UINT ∧ Balanced "[-]++[>+<-]>.".toList ∧
      ∃ s ip, main "[-]++[>+<-]>.".toList [] 40 = .ok (s, ip) ∧
        ip = "[-]++[>+<-]>.".toList.length ∧ s.loop_stack = [] := by
  have h0 : observe (main "[-]++[>+<-]>.".toList [] 40) = .ok (13, [2], [], 1, 0, 2) := by
    decide!
  obtain ⟨s, hs, -⟩ := observe_eq_ok h0
  exact ⟨by decide, by decide, s, 13, hs,
    balanced_run_ends_with_empty_stack _ [] 40 s 13 (by decide) (by decide) hs⟩

/-! ## Two small programs -/

/-- C5: the program "+[>+<-]" run from the initial all-zero tape with data
pointer 0 and empty loop stack halts (with any fuel from 7 on, whatever the
pending input) at offset 7, the length of the program, with cell 0 equal to
0 and cell 1 equal to 1. -/
theorem move_loop_result (input : List Nat) (fuel : Nat) (hfuel : 7 ≤ fuel) :
    ∃ s, main "+[>+<-]".toList input fuel = .ok (s, 7) ∧ "+[>+<-]".toList.length = 7 ∧
      s.array 0 = 0 ∧ s.array 1 = 1 := by
  have h0 : observe (main "+[>+<-]".toList [] 7) = .ok (7, [], [], 0, 0, 1) := by decide!
  have h := observe_main_of_closed _ 7 _ (by decide) h0 input fuel hfuel
  obtain ⟨s, hs, -, -, -, ha0, ha1⟩ := observe_eq_ok h
  exact ⟨s, hs, rfl, ha0, ha1⟩

theorem move_loop_result_witness :
    7 ≤ 7 ∧ ∃ s, main "+[>+<-]".toList [] 7 = .ok (s, 7) ∧ "+[>+<-]".toList.length = 7 ∧
      s.array 0 = 0 ∧ s.array 1 = 1 :=
  ⟨le_refl _, move_loop_result [] 7 (le_refl _)⟩

/-- C6: the program "+++." run from the initial all-zero tape writes exactly
one output byte, of value 3, and halts (with any fuel from 4 on, whatever
the pending input) at offset 4, the length of the source. -/
theorem three_plus_dot_result (input : List Nat) (fuel : Nat) (hfuel : 4 ≤ fuel) :
    ∃ s, main "+++.".toList input fuel = .ok (s, 4) ∧ "+++.".toList.length = 4 ∧
      s.stdout = [3] := by
  have h0 : observe (main "+++.".toList [] 4) = .ok (4, [3], [], 0, 3, 0) := by decide!
  have h := observe_main_of_closed _ 4 _ (by decide) h0 input fuel hfuel
  obtain ⟨s, hs, hout, -⟩ := observe_eq_ok h
  exact ⟨s, hs, rfl, hout⟩

theorem three_plus_dot_result_witness :
    4 ≤ 9 ∧ ∃ s, main "+++.".toList [65] 9 = .ok (s, 4) ∧ "+++.".toList.length = 4 ∧
      s.stdout = [3] :=
  ⟨by decide, three_plus_dot_result [65] 9 (by decide)⟩

/-! ## The data pointer -/

/-- While the guard of `next_cell` holds, `k` calls move the data pointer
`k` cells to the right and change nothing else. -/
theorem next_cell_iterate (s : State) :
    ∀ k : Nat, s.data + k ≤ s.size + 1 → s.data + k < UINT →
      State.next_cell^[k] s = { s with data := s.data + k } := by
  intro k
  induction k with
  | zero => intro _ _; rfl
  | succ k ih =>
    intro h1 h2
    rw [Function.iterate_succ_apply', ih (by omega) (by omega)]
    have hg : s.data + k < s.size + 1 := by omega
    simp only [State.next_cell, hg, if_true]
    rw [Nat.mod_eq_of_lt (by omega)]
    rfl

/-- C7 (the code at the failing input): from the initial state of a tape of
30000 cells, 30000 calls of `next_cell` (the program of 30000 `>`) leave the
data pointer at 30000, which is the tape length and so not an index of the
tape; one more call moves it to 30001. -/
theorem next_cell_leaves_tape :
    (State.next_cell^[30000] (State.init 30000 [])).data = 30000 ∧
      (State.next_cell^[30000] (State.init 30000 [])).size = 30000 ∧
      (State.next_cell^[30001] (State.init 30000 [])).data = 30001 ∧
      (State.next_cell^[30000] (State.init 30000 [])).cell = none := by
  rw [next_cell_iterate _ 30000 (by decide) (by decide),
    next_cell_iterate _ 30001 (by decide) (by decide)]
  exact ⟨rfl, rfl, rfl, rfl⟩

/-! ## An unmatched `[` -/

/-- The fuel that `State::jump` gives its loop is never exhausted. -/
theorem jumpLoop_ne_timeout (prog : List Char) :
    ∀ (fuel j c : Nat), prog.length + 1 - j < fuel → jumpLoop prog fuel j c ≠ .timeout := by
  intro fuel
  induction fuel with
  | zero => intro j c h; omega
  | succ f ih =>
    intro j c h
    rw [jumpLoop]
    cases hf : fetch prog j with
    | none => simp
    | some instr =>
      have hj : j ≤ prog.length := by
        by_contra hcon
        rw [fetch_of_gt (by omega)] at hf
        simp at hf
      simp only
      split
      · exact ih _ _ (by omega)
      · split
        · split
          · simp
          · exact ih _ _ (by omega)
        · exact ih _ _ (by omega)

theorem jump_ne_timeout (prog : List Char) (ip : Nat) : jump prog ip ≠ .timeout :=
  jumpLoop_ne_timeout prog _ _ _ (by omega)

/-- Without a matching `]` the scan loop reads on until it is past the
terminating NUL. -/
theorem jumpLoop_unmatched (prog : List Char) (p : Nat) (hlen : prog.length < UINT)
    (hno : ∀ m, ¬ IsMatch prog p m) :
    ∀ (n j c fuel : Nat), prog.length + 1 - j = n → p < j →
      (c : Int) = nesting prog (p + 1) j →
      (∀ i, i < j → p < i → prog[i]? = some ']' → nesting prog (p + 1) i ≠ 0) →
      n < fuel → jumpLoop prog fuel j c = .undef := by
  intro n
  induction n with
  | zero =>
    intro j c fuel hn _ _ _ hfuel
    obtain ⟨f, rfl⟩ : ∃ f, fuel = f + 1 := ⟨fuel - 1, by omega⟩
    rw [jumpLoop, fetch_of_gt (by omega)]
  | succ n ih =>
    intro j c fuel hn hpj hc hfirst hfuel
    obtain ⟨f, rfl⟩ : ∃ f, fuel = f + 1 := ⟨fuel - 1, by omega⟩
    have hjl : j ≤ prog.length := by omega
    have hf : fetch prog j = some (prog.getD j NUL) := fetch_of_le hjl
    have hstep := nesting_succ prog (p + 1) j (by omega)
    have hbound := nesting_le prog (p + 1) j
    have hU : UINT = 4294967296 := by decide
    rw [jumpLoop]
    simp only [hf]
    by_cases h1 : prog.getD j NUL = '['
    · have hd : bracketDelta (prog.getD j NUL) = 1 := by rw [h1]; decide
      have hjlt : j < prog.length := lt_length_of_getD_ne (by rw [h1]; decide)
      have hmod : (c + 1) % UINT = c + 1 := Nat.mod_eq_of_lt (by omega)
      simp only [h1, if_true, hmod]
      refine ih (j + 1) (c + 1) f (by omega) (by omega) (by rw [hstep, hd]; push_cast; omega)
        ?_ (by omega)
      intro i hi hpi hget
      by_cases e : i = j
      · subst e
        rw [getD_of_getElem? hget] at h1
        exact absurd h1 (by decide)
      · exact hfirst i (by omega) hpi hget
    · by_cases h2 : prog.getD j NUL = ']'
      · have hd : bracketDelta (prog.getD j NUL) = -1 := by rw [h2]; decide
        have hjlt : j < prog.length := lt_length_of_getD_ne (by rw [h2]; decide)
        have hget : prog[j]? = some ']' := by rw [getElem?_of_lt hjlt, h2]
        have hc0 : c ≠ 0 := by
          intro e
          apply hno j
          refine ⟨hpj, hget, ?_, hfirst⟩
          rw [← hc, e]; rfl
        have hne2 : (']' : Char) ≠ '[' := by decide
        simp only [h2, hne2, if_false, if_true, hc0]
        refine ih (j + 1) (c - 1) f (by omega) (by omega) (by rw [hstep, hd]; omega) ?_ (by omega)
        intro i hi hpi hgeti
        by_cases e : i = j
        · subst e
          intro hz
          rw [hz] at hc
          exact hc0 (by exact_mod_cast hc)
        · exact hfirst i (by omega) hpi hgeti
      · have hd : bracketDelta (prog.getD j NUL) = 0 := bracketDelta_other h1 h2
        simp only [h1, h2, if_false]
        refine ih (j + 1) c f (by omega) (by omega) (by rw [hstep, hd]; omega) ?_ (by omega)
        intro i hi hpi hget
        by_cases e : i = j
        · subst e
          exact absurd (getD_of_getElem? hget) h2
        · exact hfirst i (by omega) hpi hget

/-- The forward scan from a `[` without a matching `]` runs past the end of
the program text. -/
theorem jump_unmatched (prog : List Char) (p : Nat) (hlen : prog.length < UINT)
    (hno : ∀ m, ¬ IsMatch prog p m) : jump prog p = .undef := by
  unfold jump
  refine jumpLoop_unmatched prog p hlen hno _ (p + 1) 0 _ rfl (by omega) ?_ ?_ (by omega)
  · rw [nesting_of_le prog (le_refl _)]; rfl
  · intro i hi hpi _; omega

theorem unmatchedOpen_of_no_close {prog : List Char} {p : Nat} (hopen : prog[p]? = some '[')
    (hno : ']' ∉ prog) : UnmatchedOpen prog p :=
  ⟨hopen, fun _ h => hno (List.getElem?_mem h.2.1)⟩

/-- C8 (counterexample): the program "+.[" has an unmatched `[` at offset 2,
yet the driver executes it without any error: `+` sets cell 0 to 1, `.`
writes the byte 1, the `[` is entered as a loop, and the run finishes
normally at offset 3. -/
theorem unmatched_program_is_executed :
    UnmatchedOpen "+.[".toList 2 ∧
      ∃ s, main "+.[".toList [] 3 = .ok (s, 3) ∧ s.stdout = [1] ∧ s.array 0 = 1 ∧
        s.loop_stack = [2] := by
  have h0 : observe (main "+.[".toList [] 3) = .ok (3, [1], [2], 0, 1, 0) := by decide!
  obtain ⟨s, hs, hout, hst, -, ha0, -⟩ := observe_eq_ok h0
  exact ⟨unmatchedOpen_of_no_close (by decide) (by decide), s, hs, hout, ha0, hst⟩

/-- C8 (amended): a program with an unmatched `[` (at offset `p`, text
fitting in a `uint` offset) is not rejected before execution.  The driver
validates nothing: its first action is `exec` at offset 0 on the initial
state.  The unmatched `[` matters only when `exec` reaches it with an
in-range data pointer: with a non-zero current cell it is entered like any
loop (offset pushed, `ip` advanced by 1), with a zero current cell the
forward scan finds no terminator and reads past the terminating NUL, which
is undefined behaviour.  No malformed-program error is reported. -/
theorem unmatched_open_not_rejected (prog : List Char) (p : Nat) (s : State)
    (hlen : prog.length < UINT) (hun : UnmatchedOpen prog p) (hd : s.data < s.size) :
    (∀ input fuel, main prog input (fuel + 1) =
        match exec prog (State.init 30000 input) 0 with
        | .ok (t, ip1) =>
          if ip1 ≠ prog.length then driver prog prog.length fuel t ip1 else .ok (t, ip1)
        | .undef => .undef
        | .timeout => .timeout) ∧
      (s.array s.data ≠ 0 →
        exec prog s p = .ok ({ s with loop_stack := p :: s.loop_stack }, p + 1)) ∧
      (s.array s.data = 0 → exec prog s p = .undef) := by
  obtain ⟨hopen, hno⟩ := hun
  have hp : p < prog.length := by
    by_contra hcon
    rw [List.getElem?_eq_none (by omega)] at hopen
    simp at hopen
  have hf : fetch prog p = some '[' := by
    rw [fetch_of_le (Nat.le_of_lt hp), getD_of_getElem? hopen]
  have hU : UINT = 4294967296 := by decide
  refine ⟨?_, ?_, ?_⟩
  · intro input fuel
    unfold main
    rw [Nat.mod_eq_of_lt hlen, driver]
  · intro hv
    rw [exec_open_nonzero _ _ _ hf hd hv, Nat.mod_eq_of_lt (by omega)]
  · intro hv
    rw [exec_open_zero _ _ _ hf hd hv, jump_unmatched prog p hlen hno]
    rfl

theorem unmatched_open_not_rejected_witness :
    "+.[".toList.length < UINT ∧ UnmatchedOpen "+.[".toList 2 ∧
      (State.init 30000 []).data < (State.init 30000 []).size ∧
      exec "+.[".toList (State.init 30000 []) 2 = .undef :=
  ⟨by decide, unmatchedOpen_of_no_close (by decide) (by decide), by decide,
    (unmatched_open_not_rejected "+.[".toList 2 (State.init 30000 []) (by decide)
      (unmatchedOpen_of_no_close (by decide) (by decide)) (by decide)).2.2 rfl⟩

/-! ## Cell arithmetic -/

theorem store_store (s : State) (v w : Nat) : (s.store v).store w = s.store w := by
  unfold State.store
  simp only [State.mk.injEq, and_true, true_and]
  funext i
  split <;> rfl

theorem store_self (s : State) : s.store (s.array s.data) = s := by
  cases s with
  | mk size array data loop_stack stdin stdout =>
    unfold State.store
    simp only [State.mk.injEq, and_true, true_and]
    funext i
    split
    · next h => rw [h]
    · rfl

theorem cell_of_lt {s : State} (hd : s.data < s.size) : s.cell = some (s.array s.data) := by
  simp [State.cell, hd]

/-- After `n + 1` increments the current cell holds its value plus `n + 1`
modulo 256 and nothing else has changed. -/
theorem repeatOp_incr_data :
    ∀ (n : Nat) (s : State), s.data < s.size →
      repeatOp State.incr_data (n + 1) s = .ok (s.store ((s.array s.data + (n + 1)) % 256)) := by
  intro n
  induction n with
  | zero =>
    intro s hd
    simp [repeatOp, State.incr_data, cell_of_lt hd, Result.bind]
  | succ n ih =>
    intro s hd
    rw [repeatOp]
    simp only [State.incr_data, cell_of_lt hd, Result.bind]
    have hd2 : (s.store ((s.array s.data + 1) % 256)).data <
        (s.store ((s.array s.data + 1) % 256)).size := hd
    rw [ih _ hd2, store_store]
    have e : (s.store ((s.array s.data + 1) % 256)).array
        (s.store ((s.array s.data + 1) % 256)).data = (s.array s.data + 1) % 256 := by
      simp [State.store]
    have harith : ((s.array s.data + 1) % 256 + (n + 1)) % 256 =
        (s.array s.data + (n + 1 + 1)) % 256 := by omega
    rw [e, harith]

/-- After `n + 1` decrements the current cell holds its value minus `n + 1`
modulo 256 and nothing else has changed. -/
theorem repeatOp_decr_data :
    ∀ (n : Nat) (s : State), s.data < s.size →
      repeatOp State.decr_data (n + 1) s =
        .ok (s.store ((s.array s.data + 255 * (n + 1)) % 256)) := by
  intro n
  induction n with
  | zero =>
    intro s hd
    simp [repeatOp, State.decr_data, cell_of_lt hd, Result.bind]
  | succ n ih =>
    intro s hd
    rw [repeatOp]
    simp only [State.decr_data, cell_of_lt hd, Result.bind]
    have hd2 : (s.store ((s.array s.data + 255) % 256)).data <
        (s.store ((s.array s.data + 255) % 256)).size := hd
    rw [ih _ hd2, store_store]
    have e : (s.store ((s.array s.data + 255) % 256)).array
        (s.store ((s.array s.data + 255) % 256)).data = (s.array s.data + 255) % 256 := by
      simp [State.store]
    have harith : ((s.array s.data + 255) % 256 + 255 * (n + 1)) % 256 =
        (s.array s.data + 255 * (n + 1 + 1)) % 256 := by omega
    rw [e, harith]

/-- C9: for every byte value `v` and every state whose data pointer is in
range and whose current cell holds `v`, 256 calls of `incr_data` in a row
succeed and give back the same state, so the cell holds `v` again; and the
same for 256 calls of `decr_data` (cell arithmetic is modulo 256). -/
theorem incr_decr_256_times (s : State) (v : Nat) (hv : v < 256) (hd : s.data < s.size)
    (hcell : s.array s.data = v) :
    repeatOp State.incr_data 256 s = .ok s ∧ repeatOp State.decr_data 256 s = .ok s ∧
      s.cell = some v := by
  have e1 : (s.array s.data + (255 + 1)) % 256 = s.array s.data := by omega
  have e2 : (s.array s.data + 255 * (255 + 1)) % 256 = s.array s.data := by omega
  refine ⟨?_, ?_, ?_⟩
  · rw [repeatOp_incr_data 255 s hd, e1, store_self]
  · rw [repeatOp_decr_data 255 s hd, e2, store_self]
  · rw [cell_of_lt hd, hcell]

theorem incr_decr_256_times_witness :
    (200 : Nat) < 256 ∧
      ((State.init 30000 []).store 200).data < ((State.init 30000 []).store 200).size ∧
      ((State.init 30000 []).store 200).array ((State.init 30000 []).store 200).data = 200 ∧
      repeatOp State.incr_data 256 ((State.init 30000 []).store 200) =
        .ok ((State.init 30000 []).store 200) ∧
      repeatOp State.decr_data 256 ((State.init 30000 []).store 200) =
        .ok ((State.init 30000 []).store 200) :=
  have h := incr_decr_256_times ((State.init 30000 []).store 200) 200 (by decide) (by decide) rfl
  ⟨by decide, by decide, rfl, h.1, h.2.1⟩

/-! ## Moving right and back -/

/-- C10: for every state whose data pointer `c` is an interior position of
the tape (`c + 1 < size`, the size being a `uint`), `next_cell` followed
immediately by `prev_cell` gives back the same state: data pointer `c` again,
tape and loop stack unchanged. -/
theorem next_cell_prev_cell (s : State) (hsize : s.size < UINT) (hc : s.data + 1 < s.size) :
    s.next_cell.prev_cell = s ∧ s.next_cell.data = s.data + 1 := by
  have hg : s.data < s.size + 1 := by omega
  have hm : (s.data + 1) % UINT = s.data + 1 := Nat.mod_eq_of_lt (by omega)
  simp [State.next_cell, State.prev_cell, hg, hm]

theorem next_cell_prev_cell_witness :
    (State.init 30000 []).size < UINT ∧
      (State.init 30000 []).data + 1 < (State.init 30000 []).size ∧
      (State.init 30000 []).next_cell.prev_cell = State.init 30000 [] ∧
      (State.init 30000 []).next_cell.data = 1 :=
  have h := next_cell_prev_cell (State.init 30000 []) (by simp [State.init, UINT])
    (by simp [State.init])
  ⟨by simp [State.init, UINT], by simp [State.init], h.1, h.2⟩

/-! ## One instruction at a time -/

theorem fetch_of_getElem? {prog : List Char} {p : Nat} {c : Char} (h : prog[p]? = some c) :
    fetch prog p = some c := by
  have hp : p < prog.length := by
    by_contra hcon
    rw [List.getElem?_eq_none (by omega)] at h
    simp at h
  rw [fetch_of_le (Nat.le_of_lt hp), getD_of_getElem? h]

theorem lt_length_of_getElem? {prog : List Char} {p : Nat} {c : Char} (h : prog[p]? = some c) :
    p < prog.length := by
  by_contra hcon
  rw [List.getElem?_eq_none (by omega)] at h
  simp at h

/-- C11: `prev_cell` decrements the data pointer by 1 when it is greater than
0 and changes nothing else; when the data pointer is 0 it returns the state
unchanged, so the pointer never goes below 0 (the `uint` never wraps): after
`prev_cell` it is at most what it was. -/
theorem prev_cell_decrements_or_stays (s : State) :
    (0 < s.data → s.prev_cell = { s with data := s.data - 1 } ∧
        s.prev_cell.data + 1 = s.data) ∧
      (s.data = 0 → s.prev_cell = s) ∧ s.prev_cell.data ≤ s.data := by
  refine ⟨?_, ?_, ?_⟩
  · intro h
    have e : s.prev_cell = { s with data := s.data - 1 } := by simp [State.prev_cell, h]
    refine ⟨e, ?_⟩
    rw [e]
    show s.data - 1 + 1 = s.data
    omega
  · intro h
    simp [State.prev_cell, h]
  · unfold State.prev_cell
    split
    · show s.data - 1 ≤ s.data
      omega
    · exact le_refl _

theorem prev_cell_decrements_or_stays_witness :
    (State.init 30000 []).data = 0 ∧ (State.init 30000 []).prev_cell = State.init 30000 [] ∧
      0 < ({ State.init 30000 [] with data := 5 } : State).data ∧
      ({ State.init 30000 [] with data := 5 } : State).prev_cell.data + 1 = 5 :=
  ⟨rfl, (prev_cell_decrements_or_stays (State.init 30000 [])).2.1 rfl, by decide,
    ((prev_cell_decrements_or_stays { State.init 30000 [] with data := 5 }).1 (by decide)).2⟩

/-- C12: for every state with an in-range data pointer and every offset `p`
holding `[` (text fitting in a `uint` offset): if the current cell is
non-zero, `exec` pushes `p` onto the loop stack and sets `ip` to `p + 1`; if
the current cell is zero, `exec` leaves the loop stack unchanged and sets `ip`
to the result of the forward scan `jump` (and has no result when the scan has
none); in both cases the tape and the data pointer are unchanged. -/
theorem exec_open_bracket (prog : List Char) (s : State) (p : Nat)
    (hlen : prog.length < UINT) (hp : prog[p]? = some '[') (hd : s.data < s.size) :
    (s.array s.data ≠ 0 →
        exec prog s p = .ok ({ s with loop_stack := p :: s.loop_stack }, p + 1)) ∧
      (s.array s.data = 0 →
        (∀ ip1, jump prog p = .ok ip1 → exec prog s p = .ok (s, ip1)) ∧
        (jump prog p = .undef → exec prog s p = .undef)) := by
  have hf := fetch_of_getElem? hp
  have hpl := lt_length_of_getElem? hp
  refine ⟨?_, ?_⟩
  · intro hv
    rw [exec_open_nonzero _ _ _ hf hd hv, Nat.mod_eq_of_lt (by omega)]
  · intro hv
    rw [exec_open_zero _ _ _ hf hd hv]
    refine ⟨?_, ?_⟩
    · intro ip1 hj; rw [hj]; rfl
    · intro hj; rw [hj]; rfl

theorem exec_open_bracket_witness :
    "+[>[-]<-]+".toList.length < UINT ∧ "+[>[-]<-]+".toList[3]? = some '[' ∧
      (State.init 30000 []).data < (State.init 30000 []).size ∧
      jump "+[>[-]<-]+".toList 3 = .ok 6 ∧
      exec "+[>[-]<-]+".toList (State.init 30000 []) 3 = .ok (State.init 30000 [], 6) :=
  have h := exec_open_bracket "+[>[-]<-]+".toList (State.init 30000 []) 3 (by decide)
    (by decide) (by decide)
  ⟨by decide, by decide, by decide, by decide, (h.2 rfl).1 6 (by decide)⟩

/-- C13: for every state with an in-range data pointer and a non-empty loop
stack with top `top`, and every offset `p` holding `]`: if the current cell is
non-zero, `exec` sets `ip` to `top + 1` and leaves the loop stack unchanged
(no pop); if the current cell is zero, `exec` pops exactly the top entry and
sets `ip` to `p + 1`; in both cases the tape and the data pointer are
unchanged. -/
theorem exec_close_bracket (prog : List Char) (s : State) (p top : Nat) (rest : List Nat)
    (hp : prog[p]? = some ']') (hd : s.data < s.size) (hst : s.loop_stack = top :: rest) :
    (s.array s.data ≠ 0 → exec prog s p = .ok (s, top + 1)) ∧
      (s.array s.data = 0 → exec prog s p = .ok ({ s with loop_stack := rest }, p + 1)) := by
  have hf := fetch_of_getElem? hp
  refine ⟨?_, ?_⟩
  · intro hv
    rw [exec_close_nonzero _ _ _ hf hd hv, hst]
  · intro hv
    rw [exec_close_zero _ _ _ hf hd hv, hst]

theorem exec_close_bracket_witness :
    "[]".toList[1]? = some ']' ∧
      ({ State.init 30000 [] with loop_stack := [0] }).data <
        ({ State.init 30000 [] with loop_stack := [0] }).size ∧
      exec "[]".toList { State.init 30000 [] with loop_stack := [0] } 1 =
        .ok (State.init 30000 [], 2) :=
  have h := exec_close_bracket "[]".toList { State.init 30000 [] with loop_stack := [0] } 1 0 []
    (by decide) (by decide) rfl
  ⟨by decide, by decide, h.2 rfl⟩

theorem exec_ne_timeout (prog : List Char) (s : State) (ip : Nat) :
    exec prog s ip ≠ .timeout := by
  unfold exec
  cases hf : fetch prog ip with
  | none => simp
  | some instr =>
    simp only
    have hj := jump_ne_timeout prog ip
    repeat' split
    all_goals first
      | (intro h; cases h)
      | (simp only [State.incr_data, State.decr_data, State.output, State.input]
         split <;> simp [Result.bind])
      | (cases hjr : jump prog ip <;> simp_all [Result.bind])

/-- C20: for every state with an in-range data pointer, `exec` on `,` stores
the low 8 bits of the value returned by `getchar` in the current cell and
advances `ip` by 1: when an input byte `b` is available the cell becomes `b`
and exactly that one byte is consumed; at end of input `getchar` returns -1
and the cell becomes 255 whatever it held before. -/
theorem exec_input_stores_low_byte (prog : List Char) (s : State) (p : Nat)
    (hp : prog[p]? = some ',') (hd : s.data < s.size) :
    (∃ t, exec prog s p = .ok (t, p + 1) ∧ t.array s.data = toCell (getchar s.stdin).1 ∧
        (t.array s.data : Int) = (getchar s.stdin).1 % 256 ∧ t.data = s.data) ∧
      (∀ b rest, s.stdin = b :: rest → b < 256 →
        ∃ t, exec prog s p = .ok (t, p + 1) ∧ t.array s.data = b ∧ t.stdin = rest) ∧
      (s.stdin = [] → (getchar s.stdin).1 = -1 ∧
        ∃ t, exec prog s p = .ok (t, p + 1) ∧ t.array s.data = 255 ∧ t.stdin = []) := by
  have hf := fetch_of_getElem? hp
  have hx : exec prog s p =
      .ok ({ s.store (toCell (getchar s.stdin).1) with stdin := (getchar s.stdin).2 }, p + 1) := by
    rw [exec_input _ _ _ hf]
    simp [State.input, cell_of_lt hd, Result.bind]
  refine ⟨⟨_, hx, by simp [State.store], ?_, rfl⟩, ?_, ?_⟩
  · have e : ({ s.store (toCell (getchar s.stdin).1) with
        stdin := (getchar s.stdin).2 } : State).array s.data = toCell (getchar s.stdin).1 := by
      simp [State.store]
    rw [e]
    unfold toCell
    exact Int.toNat_of_nonneg (Int.emod_nonneg _ (by decide))
  · intro b rest hb hlt
    refine ⟨_, hx, ?_, ?_⟩
    · simp only [State.store, hb, getchar, toCell, if_true]
      omega
    · simp [hb, getchar]
  · intro he
    refine ⟨by rw [he]; rfl, _, hx, ?_, ?_⟩
    · simp only [State.store, he, getchar, toCell, if_true]
      decide
    · simp [he, getchar]

theorem exec_input_stores_low_byte_witness :
    ",".toList[0]? = some ',' ∧
      (State.init 30000 [65, 66]).data < (State.init 30000 [65, 66]).size ∧
      ∃ t, exec ",".toList (State.init 30000 [65, 66]) 0 = .ok (t, 0 + 1) ∧
        t.array (State.init 30000 [65, 66]).data = 65 ∧ t.stdin = [66] :=
  ⟨by decide, by decide,
    (exec_input_stores_low_byte ",".toList (State.init 30000 [65, 66]) 0 (by decide)
      (by decide)).2.1 65 [66] rfl (by decide)⟩

/-! ## The scan from an unmatched `[` -/

/-- A scan that returned keeps its result when given more fuel. -/
theorem jumpLoop_fuel_mono (prog : List Char) (r : Nat) :
    ∀ (fuel k j c : Nat), jumpLoop prog fuel j c = .ok r →
      jumpLoop prog (fuel + k) j c = .ok r := by
  intro fuel
  induction fuel with
  | zero => intro k j c h; simp [jumpLoop] at h
  | succ f ih =>
    intro k j c h
    have e : f + 1 + k = (f + k) + 1 := by omega
    rw [e]
    rw [jumpLoop] at h
    rw [jumpLoop]
    cases hf : fetch prog j with
    | none => rw [hf] at h; simp at h
    | some instr =>
      rw [hf] at h
      simp only at h ⊢
      split
      · next h1 => rw [if_pos h1] at h; exact ih _ _ _ h
      · next h1 =>
        rw [if_neg h1] at h
        split
        · next h2 =>
          rw [if_pos h2] at h
          split
          · next h3 => rw [if_pos h3] at h; exact h
          · next h3 => rw [if_neg h3] at h; exact ih _ _ _ h
        · next h2 => rw [if_neg h2] at h; exact ih _ _ _ h

/-- While characters of the text (NUL included) remain to be read, the scan
loop does not run into undefined behaviour. -/
theorem jumpLoop_ne_undef (prog : List Char) :
    ∀ (fuel j c : Nat), fuel + j ≤ prog.length + 1 → jumpLoop prog fuel j c ≠ .undef := by
  intro fuel
  induction fuel with
  | zero => intro j c _; simp [jumpLoop]
  | succ f ih =>
    intro j c h
    rw [jumpLoop, fetch_of_le (by omega)]
    simp only
    split
    · exact ih _ _ (by omega)
    · split
      · split
        · simp
        · exact ih _ _ (by omega)
      · exact ih _ _ (by omega)

/-- C17: for every program (text fitting in a `uint` offset) in which the `[`
at offset `p` has no matching `]`, the forward scan of `State::jump` started
at `p` never stops: whatever the number of iterations, the loop does not
return; after reading every character up to and including the terminating
NUL at offset `length` it is still scanning; and its next read is past the
end of the program text (undefined behaviour). -/
theorem jump_unmatched_reads_past_end (prog : List Char) (p : Nat) (hlen : prog.length < UINT)
    (hp : prog[p]? = some '[') (hno : ∀ m, ¬ IsMatch prog p m) :
    (∀ fuel ip1, jumpLoop prog fuel (p + 1) 0 ≠ .ok ip1) ∧
      (∀ fuel, fuel ≤ prog.length - p → jumpLoop prog fuel (p + 1) 0 = .timeout) ∧
      jump prog p = .undef := by
  have hpl := lt_length_of_getElem? hp
  have hu := jump_unmatched prog p hlen hno
  have hnever : ∀ fuel ip1, jumpLoop prog fuel (p + 1) 0 ≠ .ok ip1 := by
    intro fuel ip1 h
    have h2 := jumpLoop_fuel_mono prog ip1 fuel (prog.length - p + 1) (p + 1) 0 h
    have h3 : jumpLoop prog (prog.length - p + 1 + fuel) (p + 1) 0 = .undef := by
      refine jumpLoop_unmatched prog p hlen hno _ (p + 1) 0 _ rfl (by omega) ?_ ?_ (by omega)
      · rw [nesting_of_le prog (le_refl _)]; rfl
      · intro i hi hpi _; omega
    rw [Nat.add_comm] at h2
    rw [h2] at h3
    simp at h3
  refine ⟨hnever, ?_, hu⟩
  intro fuel hfuel
  cases hr : jumpLoop prog fuel (p + 1) 0 with
  | ok r => exact absurd hr (hnever fuel r)
  | undef => exact absurd hr (jumpLoop_ne_undef prog fuel (p + 1) 0 (by omega))
  | timeout => rfl

theorem jump_unmatched_reads_past_end_witness :
    "+[[-]".toList.length < UINT ∧ "+[[-]".toList[1]? = some '[' ∧
      (∀ m, ¬ IsMatch "+[[-]".toList 1 m) ∧ jump "+[[-]".toList 1 = .undef ∧
      jumpLoop "+[[-]".toList 4 2 0 = .timeout := by
  have hno : ∀ m, ¬ IsMatch "+[[-]".toList 1 m := by
    intro m hm
    have hlt := lt_length_of_getElem? hm.2.1
    have h5 : m < 5 := hlt
    interval_cases m <;> revert hm <;> decide
  have h := jump_unmatched_reads_past_end "+[[-]".toList 1 (by decide) (by decide) hno
  exact ⟨by decide, by decide, hno, h.2.2, h.2.1 4 (by decide)⟩

/-! ## How far the data pointer goes -/

theorem applyMoves_data_le :
    ∀ (ms : List Move) (s : State), s.data ≤ s.size + 1 →
      (applyMoves s ms).data ≤ s.size + 1 ∧ (applyMoves s ms).size = s.size := by
  intro ms
  induction ms with
  | nil => intro s h; exact ⟨h, rfl⟩
  | cons m ms ih =>
    intro s h
    have hstep : (applyMove s m).data ≤ (applyMove s m).size + 1 ∧
        (applyMove s m).size = s.size := by
      cases m with
      | next =>
        simp only [applyMove, State.next_cell]
        split
        · refine ⟨?_, rfl⟩
          show (s.data + 1) % UINT ≤ s.size + 1
          exact le_trans (Nat.mod_le _ _) (by omega)
        · exact ⟨h, rfl⟩
      | prev =>
        simp only [applyMove, State.prev_cell]
        split
        · refine ⟨?_, rfl⟩
          show s.data - 1 ≤ s.size + 1
          omega
        · exact ⟨h, rfl⟩
    obtain ⟨h1, h2⟩ := ih (applyMove s m) hstep.1
    rw [hstep.2] at h1 h2
    exact ⟨h1, h2⟩

/-- C19: for a tape of length `n` (with `n + 1` a `uint` value), in every
state reached from the initial state by `next_cell` and `prev_cell` calls the
data pointer is at most `n + 1`, and the bound is attained: `n + 1` calls of
`next_cell` in a row from data pointer 0 leave it at `n + 1`, two past the
last valid index `n - 1`, after which further `next_cell` calls change
nothing. -/
theorem data_pointer_bound (n : Nat) (input : List Nat) (hn : n + 1 < UINT) :
    (∀ ms, (applyMoves (State.init n input) ms).data ≤ n + 1) ∧
      (State.next_cell^[n + 1] (State.init n input)).data = n + 1 ∧
      (State.next_cell^[n + 1] (State.init n input)).size = n ∧
      ∀ k, State.next_cell^[n + 1 + k] (State.init n input) =
        State.next_cell^[n + 1] (State.init n input) := by
  have h0 : (State.init n input).data = 0 := rfl
  have hsz : (State.init n input).size = n := rfl
  have hit := next_cell_iterate (State.init n input) (n + 1) (by rw [h0, hsz]; omega)
    (by rw [h0]; omega)
  refine ⟨?_, ?_, ?_, ?_⟩
  · intro ms
    exact (applyMoves_data_le ms (State.init n input) (by rw [h0]; omega)).1
  · rw [hit]; show 0 + (n + 1) = n + 1; omega
  · rw [hit]; rfl
  · intro k
    induction k with
    | zero => rfl
    | succ k ih =>
      have e : n + 1 + (k + 1) = (n + 1 + k) + 1 := by omega
      rw [e, Function.iterate_succ_apply', ih, hit]
      have hg : ¬ (0 + (n + 1) < n + 1) := by omega
      simp only [State.next_cell, h0, hsz, hg, if_false]

theorem data_pointer_bound_witness :
    (3 : Nat) + 1 < UINT ∧
      (applyMoves (State.init 3 []) [.next, .next, .prev, .next, .next, .next, .next]).data ≤
        3 + 1 ∧
      (State.next_cell^[3 + 1] (State.init 3 [])).data = 3 + 1 :=
  have h := data_pointer_bound 3 [] (by decide)
  ⟨by decide, h.1 _, h.2.1⟩

/-! ## Open brackets and matching pairs -/

/-- Every recorded open bracket is a `[` at a smaller offset. -/
theorem openStack_mem (prog : List Char) :
    ∀ (k : Nat) (st : List Nat) (q : Nat), openStack prog k = some st → q ∈ st →
      q < k ∧ prog.getD q NUL = '[' := by
  intro k
  induction k with
  | zero => intro st q h hq; simp [openStack] at h; subst h; simp at hq
  | succ k ih =>
    intro st q h hq
    obtain ⟨st0, h0⟩ := openStack_succ_isSome h
    by_cases h1 : prog.getD k NUL = '['
    · rw [openStack_open h0 h1] at h
      simp only [Option.some.injEq] at h; subst h
      rcases List.mem_cons.1 hq with rfl | hq
      · exact ⟨Nat.lt_succ_self _, h1⟩
      · obtain ⟨a, b⟩ := ih st0 q h0 hq
        exact ⟨by omega, b⟩
    · by_cases h2 : prog.getD k NUL = ']'
      · cases st0 with
        | nil => rw [openStack_close_nil h0 h2] at h; simp at h
        | cons x r =>
          rw [openStack_close h0 h2] at h
          simp only [Option.some.injEq] at h; subst h
          obtain ⟨a, b⟩ := ih _ q h0 (List.mem_cons_of_mem _ hq)
          exact ⟨by omega, b⟩
      · rw [openStack_other h0 h1 h2] at h
        simp only [Option.some.injEq] at h; subst h
        obtain ⟨a, b⟩ := ih _ q h0 hq
        exact ⟨by omega, b⟩

/-- The record of open brackets is strictly decreasing. -/
theorem openStack_pairwise (prog : List Char) :
    ∀ (k : Nat) (st : List Nat), openStack prog k = some st → st.Pairwise (· > ·) := by
  intro k
  induction k with
  | zero => intro st h; simp [openStack] at h; subst h; exact List.Pairwise.nil
  | succ k ih =>
    intro st h
    obtain ⟨st0, h0⟩ := openStack_succ_isSome h
    have hp := ih st0 h0
    by_cases h1 : prog.getD k NUL = '['
    · rw [openStack_open h0 h1] at h
      simp only [Option.some.injEq] at h; subst h
      exact List.pairwise_cons.2 ⟨fun a ha => (openStack_mem prog k st0 a h0 ha).1, hp⟩
    · by_cases h2 : prog.getD k NUL = ']'
      · cases st0 with
        | nil => rw [openStack_close_nil h0 h2] at h; simp at h
        | cons x r =>
          rw [openStack_close h0 h2] at h
          simp only [Option.some.injEq] at h; subst h
          exact hp.of_cons
      · rw [openStack_other h0 h1 h2] at h
        simp only [Option.some.injEq] at h; subst h
        exact hp

/-- An open bracket that is the innermost one at offset `p` stays recorded
at every offset between it and `p`. -/
theorem openStack_keeps (prog : List Char) :
    ∀ (p q : Nat) (t : List Nat), openStack prog p = some (q :: t) →
      ∀ j, q < j → j ≤ p → ∃ xs, openStack prog j = some (xs ++ q :: t) := by
  intro p
  induction p using Nat.strong_induction_on with
  | _ p ih =>
    intro q t h j hqj hjp
    cases p with
    | zero => simp [openStack] at h
    | succ k =>
      by_cases e : j = k + 1
      · subst e; exact ⟨[], h⟩
      have hjk : j ≤ k := by omega
      obtain ⟨st0, h0⟩ := openStack_succ_isSome h
      by_cases h1 : prog.getD k NUL = '['
      · rw [openStack_open h0 h1] at h
        simp only [Option.some.injEq, List.cons.injEq] at h
        obtain ⟨rfl, rfl⟩ := h
        omega
      · by_cases h2 : prog.getD k NUL = ']'
        · cases st0 with
          | nil => rw [openStack_close_nil h0 h2] at h; simp at h
          | cons x r =>
            rw [openStack_close h0 h2] at h
            simp only [Option.some.injEq] at h; subst h
            obtain ⟨hx, -, hxs⟩ := openStack_top prog k x _ h0
            by_cases hjx : j ≤ x
            · exact ih x (by omega) q t hxs j hqj hjx
            · obtain ⟨ys, hys⟩ := ih k (Nat.lt_succ_self _) x (q :: t) h0 j (by omega) hjk
              exact ⟨ys ++ [x], by rw [hys]; simp⟩
        · rw [openStack_other h0 h1 h2] at h
          simp only [Option.some.injEq] at h; subst h
          exact ih k (Nat.lt_succ_self _) q t h0 j hqj hjk

theorem append_cons_ne_self {xs t : List Nat} {q : Nat} : t ≠ xs ++ q :: t := by
  intro h
  have := congrArg List.length h
  simp only [List.length_append, List.length_cons] at this
  omega

/-- While the `[` at `q` stays recorded, the brackets recorded above it are
as many as the nesting counted from `q + 1`. -/
theorem nesting_eq_length (prog : List Char) (p q : Nat) (t : List Nat)
    (hq : openStack prog q = some t) (hc : prog.getD q NUL = '[')
    (hkeep : ∀ j, q < j → j ≤ p → ∃ xs, openStack prog j = some (xs ++ q :: t)) :
    ∀ (d j : Nat) (xs : List Nat), j = q + 1 + d → j ≤ p →
      openStack prog j = some (xs ++ q :: t) → (xs.length : Int) = nesting prog (q + 1) j := by
  intro d
  induction d with
  | zero =>
    intro j xs hj _ hs
    have e : j = q + 1 := by omega
    subst e
    rw [openStack_open hq hc] at hs
    simp only [Option.some.injEq] at hs
    have hx : xs = [] := List.append_left_eq_self.1 hs.symm
    rw [hx, nesting_of_le prog (le_refl _)]
    rfl
  | succ d ih =>
    intro j xs hj hjp hs
    obtain ⟨j0, rfl⟩ : ∃ j0, j = j0 + 1 := ⟨q + 1 + d, by omega⟩
    obtain ⟨xs0, hs0⟩ := hkeep j0 (by omega) (by omega)
    have hl := ih j0 xs0 (by omega) (by omega) hs0
    have hstep := nesting_succ prog (q + 1) j0 (by omega)
    by_cases h1 : prog.getD j0 NUL = '['
    · have hd : bracketDelta (prog.getD j0 NUL) = 1 := by rw [h1]; decide
      rw [openStack_open hs0 h1] at hs
      simp only [Option.some.injEq] at hs
      have hx : xs = j0 :: xs0 := by
        have h' : (j0 :: xs0) ++ q :: t = xs ++ q :: t := hs
        exact (List.append_cancel_right h').symm
      rw [hx, hstep, hd, ← hl]
      simp
    · by_cases h2 : prog.getD j0 NUL = ']'
      · have hd : bracketDelta (prog.getD j0 NUL) = -1 := by rw [h2]; decide
        cases xs0 with
        | nil =>
          rw [openStack_close hs0 h2] at hs
          simp only [Option.some.injEq] at hs
          exact absurd hs append_cons_ne_self
        | cons x r =>
          have hs1 : openStack prog (j0 + 1) = some (r ++ q :: t) := openStack_close hs0 h2
          rw [hs1] at hs
          simp only [Option.some.injEq] at hs
          have hx : xs = r := (List.append_cancel_right hs).symm
          rw [hx, hstep, hd, ← hl]
          simp
      · have hd : bracketDelta (prog.getD j0 NUL) = 0 := bracketDelta_other h1 h2
        rw [openStack_other hs0 h1 h2] at hs
        simp only [Option.some.injEq] at hs
        have hx : xs = xs0 := (List.append_cancel_right hs).symm
        rw [hx, hstep, hd, ← hl]
        simp

/-- The innermost open bracket recorded at a `]` is the `[` that this `]`
matches. -/
theorem isMatch_of_top (prog : List Char) (p q : Nat) (t : List Nat)
    (h : openStack prog p = some (q :: t)) (hc : prog.getD p NUL = ']') :
    IsMatch prog q p := by
  obtain ⟨hqp, hqc, hqs⟩ := openStack_top prog p q t h
  have hkeep := openStack_keeps prog p q t h
  have hnest := nesting_eq_length prog p q t hqs hqc hkeep
  have hpl : p < prog.length := lt_length_of_getD_ne (by rw [hc]; decide)
  refine ⟨hqp, by rw [getElem?_of_lt hpl, hc], ?_, ?_⟩
  · have := hnest (p - (q + 1)) p [] (by omega) (le_refl _) h
    rw [← this]; rfl
  · intro j hjp hqj hget hz
    obtain ⟨xs, hxs⟩ := hkeep j hqj (by omega)
    have hl := hnest (j - (q + 1)) j xs (by omega) (by omega) hxs
    rw [hz] at hl
    have hx : xs = [] := List.length_eq_zero.1 (by exact_mod_cast hl)
    subst hx
    have hcl : openStack prog (j + 1) = some t :=
      openStack_close hxs (getD_of_getElem? hget)
    obtain ⟨ys, hys⟩ := hkeep (j + 1) (by omega) (by omega)
    rw [hcl] at hys
    simp only [Option.some.injEq] at hys
    exact append_cons_ne_self hys

/-- Before the matching `]` of the `[` at `q` is met, that `[` is recorded,
below as many brackets as the nesting counted from `q + 1`. -/
theorem openStack_before_match (prog : List Char) (q : Nat) (t : List Nat)
    (hq : openStack prog q = some t) (hc : prog.getD q NUL = '[') :
    ∀ (d j : Nat) (st : List Nat), j = q + 1 + d →
      (∀ i, i < j → q < i → prog[i]? = some ']' → nesting prog (q + 1) i ≠ 0) →
      openStack prog j = some st →
      ∃ xs, st = xs ++ q :: t ∧ (xs.length : Int) = nesting prog (q + 1) j := by
  intro d
  induction d with
  | zero =>
    intro j st hj _ hs
    have e : j = q + 1 := by omega
    subst e
    rw [openStack_open hq hc] at hs
    simp only [Option.some.injEq] at hs
    refine ⟨[], hs.symm, ?_⟩
    rw [nesting_of_le prog (le_refl _)]; rfl
  | succ d ih =>
    intro j st hj hfirst hs
    obtain ⟨j0, rfl⟩ : ∃ j0, j = j0 + 1 := ⟨q + 1 + d, by omega⟩
    obtain ⟨st0, hs0⟩ := openStack_succ_isSome hs
    obtain ⟨xs0, rfl, hl⟩ := ih j0 st0 (by omega)
      (fun i hi hqi hg => hfirst i (by omega) hqi hg) hs0
    have hstep := nesting_succ prog (q + 1) j0 (by omega)
    by_cases h1 : prog.getD j0 NUL = '['
    · have hd : bracketDelta (prog.getD j0 NUL) = 1 := by rw [h1]; decide
      rw [openStack_open hs0 h1] at hs
      simp only [Option.some.injEq] at hs
      refine ⟨j0 :: xs0, hs.symm, ?_⟩
      rw [hstep, hd, ← hl]; simp
    · by_cases h2 : prog.getD j0 NUL = ']'
      · have hd : bracketDelta (prog.getD j0 NUL) = -1 := by rw [h2]; decide
        have hjl : j0 < prog.length := lt_length_of_getD_ne (by rw [h2]; decide)
        have hne := hfirst j0 (by omega) (by omega) (by rw [getElem?_of_lt hjl, h2])
        cases xs0 with
        | nil => exact absurd hl.symm hne
        | cons x r =>
          have hs1 : openStack prog (j0 + 1) = some (r ++ q :: t) := openStack_close hs0 h2
          rw [hs1] at hs
          simp only [Option.some.injEq] at hs
          refine ⟨r, hs.symm, ?_⟩
          rw [hstep, hd, ← hl]; simp
      · have hd : bracketDelta (prog.getD j0 NUL) = 0 := bracketDelta_other h1 h2
        rw [openStack_other hs0 h1 h2] at hs
        simp only [Option.some.injEq] at hs
        refine ⟨xs0, hs.symm, ?_⟩
        rw [hstep, hd, ← hl]; simp

/-- In a balanced program every recorded open bracket is closed further on,
by a `]` at which it is the innermost one. -/
theorem exists_close (prog : List Char) (hbal : Balanced prog) (q : Nat) :
    ∀ (n ip : Nat) (st : List Nat), prog.length - ip = n → ip ≤ prog.length →
      openStack prog ip = some st → q ∈ st →
      ∃ m t, ip ≤ m ∧ m < prog.length ∧ prog.getD m NUL = ']' ∧
        openStack prog m = some (q :: t) := by
  intro n
  induction n with
  | zero =>
    intro ip st hn hip hs hq
    have e : ip = prog.length := by omega
    subst e
    unfold Balanced at hbal
    rw [hbal] at hs
    simp only [Option.some.injEq] at hs
    subst hs
    simp at hq
  | succ n ih =>
    intro ip st hn hip hs hq
    have hlt : ip < prog.length := by omega
    by_cases h1 : prog.getD ip NUL = '['
    · obtain ⟨m, t, a, b, c, d⟩ := ih (ip + 1) (ip :: st) (by omega) (by omega)
        (openStack_open hs h1) (List.mem_cons_of_mem _ hq)
      exact ⟨m, t, by omega, b, c, d⟩
    · by_cases h2 : prog.getD ip NUL = ']'
      · cases st with
        | nil => simp at hq
        | cons x r =>
          rcases List.mem_cons.1 hq with rfl | hq
          · exact ⟨ip, r, le_refl _, hlt, h2, hs⟩
          · obtain ⟨m, t, a, b, c, d⟩ := ih (ip + 1) r (by omega) (by omega)
              (openStack_close hs h2) hq
            exact ⟨m, t, by omega, b, c, d⟩
      · obtain ⟨m, t, a, b, c, d⟩ := ih (ip + 1) st (by omega) (by omega)
          (openStack_other hs h1 h2) hq
        exact ⟨m, t, by omega, b, c, d⟩

/-- In a balanced program the open brackets recorded at an offset are
exactly the `[` of the pairs that enclose it. -/
theorem mem_openStack_iff (prog : List Char) (hbal : Balanced prog) (ip : Nat) (st : List Nat)
    (hip : ip ≤ prog.length) (hs : openStack prog ip = some st) (q : Nat) :
    q ∈ st ↔ Encloses prog ip q := by
  constructor
  · intro hq
    obtain ⟨hqi, hqc⟩ := openStack_mem prog ip st q hs hq
    obtain ⟨m, t, hm1, hm2, hm3, hm4⟩ := exists_close prog hbal q _ ip st rfl hip hs hq
    refine ⟨hqi, ?_, m, hm2, hm1, isMatch_of_top prog m q t hm4 hm3⟩
    rw [getElem?_of_lt (by omega), hqc]
  · rintro ⟨hqi, hopen, m, hml, him, hmatch⟩
    obtain ⟨t, ht⟩ := openStack_isSome_of_le hs q (by omega)
    obtain ⟨xs, rfl, -⟩ := openStack_before_match prog q t ht (getD_of_getElem? hopen)
      (ip - (q + 1)) ip st (by omega)
      (fun i hi hqi2 hg => hmatch.2.2.2 i (by omega) hqi2 hg) hs
    simp

theorem openStack_length_eq_enclosingPairs (prog : List Char) (hbal : Balanced prog)
    (ip : Nat) (st : List Nat) (hip : ip ≤ prog.length) (hs : openStack prog ip = some st) :
    st.length = enclosingPairs prog ip := by
  unfold enclosingPairs
  apply List.Perm.length_eq
  have hnd : st.Nodup :=
    List.Pairwise.imp (fun {a b} (h : a > b) => Nat.ne_of_gt h) (openStack_pairwise prog ip st hs)
  refine (List.perm_ext_iff_of_nodup hnd ((List.nodup_range ip).filter _)).2 ?_
  intro q
  rw [mem_openStack_iff prog hbal ip st hip hs q]
  simp only [List.mem_filter, List.mem_range, decide_eq_true_eq]
  constructor
  · intro h; exact ⟨h.1, h⟩
  · intro h; exact h.2

/-- Every state the driver passes through, in a balanced program, has the
loop stack equal to the record of the brackets open before `ip`. -/
theorem reachable_StackInv (prog : List Char) (input : List Nat) (hlen : prog.length < UINT)
    (hbal : Balanced prog) (s : State) (ip : Nat) (hr : Reachable prog input s ip) :
    StackInv prog s ip := by
  induction hr with
  | init => exact ⟨Nat.zero_le _, rfl⟩
  | step _ hx ih => exact exec_preserves_StackInv prog hlen hbal _ _ _ _ ih hx

/-- The state in which a run of the driver ends is one it passed through. -/
theorem driver_reachable (prog : List Char) (input : List Nat) (len : Nat) :
    ∀ (fuel : Nat) (s t : State) (ip ip1 : Nat), Reachable prog input s ip →
      driver prog len fuel s ip = .ok (t, ip1) → Reachable prog input t ip1 := by
  intro fuel
  induction fuel with
  | zero => intro s t ip ip1 _ h; simp [driver] at h
  | succ n ih =>
    intro s t ip ip1 hr h
    rw [driver] at h
    cases hx : exec prog s ip with
    | ok v =>
      obtain ⟨u, ip2⟩ := v
      rw [hx] at h
      have hr2 := Reachable.step hr hx
      by_cases he : ip2 = len
      · simp only [he, ne_eq, not_true_eq_false, if_false, Result.ok.injEq, Prod.mk.injEq] at h
        obtain ⟨rfl, rfl⟩ := h
        exact he ▸ hr2
      · simp only [ne_eq, he, not_false_eq_true, if_true] at h
        exact ih u t ip2 ip1 hr2 h
    | undef => rw [hx] at h; simp at h
    | timeout => rw [hx] at h; simp at h

/-- C16: for every program with balanced, properly nested brackets (text
fitting in a `uint` offset), in every state the driver passes through from
the initial state (empty stack, offset 0) the depth of the loop stack equals
the number of `[`...`]` pairs that lexically enclose the current offset; and
a `[` reached with a zero current cell is skipped without a push: `exec`
returns the same state, loop stack included. -/
theorem stack_depth_is_enclosing_pairs (prog : List Char) (input : List Nat) (s : State)
    (ip : Nat) (hlen : prog.length < UINT) (hbal : Balanced prog)
    (hr : Reachable prog input s ip) :
    s.loop_stack.length = enclosingPairs prog ip ∧
      (prog[ip]? = some '[' → s.data < s.size → s.array s.data = 0 →
        ∃ ip1, exec prog s ip = .ok (s, ip1)) := by
  obtain ⟨hip, hst⟩ := reachable_StackInv prog input hlen hbal s ip hr
  refine ⟨openStack_length_eq_enclosingPairs prog hbal ip _ hip hst, ?_⟩
  intro hopen hd hv
  obtain ⟨m, -, -, hj, -⟩ := jump_balanced prog ip _ hlen hbal hst (getD_of_getElem? hopen)
  refine ⟨m + 1, ?_⟩
  rw [exec_open_zero _ _ _ (fetch_of_getElem? hopen) hd hv, hj]
  rfl

theorem stack_depth_is_enclosing_pairs_witness :
    "+[-]".toList.length < UINT ∧ Balanced "+[-]".toList ∧
      ∃ s, Reachable "+[-]".toList [] s 3 ∧ s.loop_stack = [1] ∧
        s.loop_stack.length = enclosingPairs "+[-]".toList 3 := by
  have h1 : Reachable "+[-]".toList [] _ _ := Reachable.step Reachable.init rfl
  have h2 : Reachable "+[-]".toList [] _ _ := Reachable.step h1 rfl
  have h3 : Reachable "+[-]".toList [] _ _ := Reachable.step h2 rfl
  exact ⟨by decide, by decide, _, h3, rfl,
    (stack_depth_is_enclosing_pairs "+[-]".toList [] _ 3 (by decide) (by decide) h3).1⟩

/-- C18: for every program with balanced, properly nested brackets (text
fitting in a `uint` offset) run from the initial state, whenever `exec` is
invoked at an offset `p` holding `]`, the loop stack is non-empty and its top
entry is the offset of the `[` that matches the `]` at `p`; so there is no
stack underflow, and a loop-back with a non-zero cell sets `ip` exactly one
past the matching `[`. -/
theorem close_bracket_top_is_match (prog : List Char) (input : List Nat) (s : State) (p : Nat)
    (hlen : prog.length < UINT) (hbal : Balanced prog) (hr : Reachable prog input s p)
    (hp : prog[p]? = some ']') :
    ∃ q rest, s.loop_stack = q :: rest ∧ prog[q]? = some '[' ∧ IsMatch prog q p ∧
      (s.data < s.size → s.array s.data ≠ 0 → exec prog s p = .ok (s, q + 1)) := by
  obtain ⟨hip, hst⟩ := reachable_StackInv prog input hlen hbal s p hr
  have hpl := lt_length_of_getElem? hp
  have hc := getD_of_getElem? hp
  cases hl : s.loop_stack with
  | nil =>
    rw [hl] at hst
    have hnone := openStack_close_nil hst hc
    unfold Balanced at hbal
    obtain ⟨st0, h0⟩ := openStack_isSome_of_le hbal (p + 1) (by omega)
    rw [hnone] at h0
    simp at h0
  | cons q rest =>
    rw [hl] at hst
    obtain ⟨hqp, hqc, -⟩ := openStack_top prog p q rest hst
    refine ⟨q, rest, rfl, by rw [getElem?_of_lt (by omega), hqc],
      isMatch_of_top prog p q rest hst hc, ?_⟩
    intro hd hv
    rw [exec_close_nonzero _ _ _ (fetch_of_getElem? hp) hd hv, hl]

theorem close_bracket_top_is_match_witness :
    "+[-]".toList.length < UINT ∧ Balanced "+[-]".toList ∧ "+[-]".toList[3]? = some ']' ∧
      ∃ s, Reachable "+[-]".toList [] s 3 ∧
        ∃ q rest, s.loop_stack = q :: rest ∧ "+[-]".toList[q]? = some '[' ∧
          IsMatch "+[-]".toList q 3 ∧
          (s.data < s.size → s.array s.data ≠ 0 →
            exec "+[-]".toList s 3 = .ok (s, q + 1)) := by
  have h1 : Reachable "+[-]".toList [] _ _ := Reachable.step Reachable.init rfl
  have h2 : Reachable "+[-]".toList [] _ _ := Reachable.step h1 rfl
  have h3 : Reachable "+[-]".toList [] _ _ := Reachable.step h2 rfl
  exact ⟨by decide, by decide, by decide, _, h3,
    close_bracket_top_is_match "+[-]".toList [] _ 3 (by decide) (by decide) h3 (by decide)⟩

/-! ## The tape is changed by cell arithmetic and input only -/

/-- Where the loop stack records the open brackets of a balanced program,
`exec` on `[` or `]` with an in-range data pointer returns a result. -/
theorem exec_bracket_ok_of_StackInv (prog : List Char) (s : State) (p : Nat) (c : Char)
    (hlen : prog.length < UINT) (hbal : Balanced prog) (hinv : StackInv prog s p)
    (hp : prog[p]? = some c) (hc : c = '[' ∨ c = ']') (hd : s.data < s.size) :
    ∃ t ip1, exec prog s p = .ok (t, ip1) := by
  obtain ⟨hip, hst⟩ := hinv
  have hf := fetch_of_getElem? hp
  have hpl := lt_length_of_getElem? hp
  have hg := getD_of_getElem? hp
  rcases hc with rfl | rfl
  · by_cases hv : s.array s.data = 0
    · obtain ⟨m, -, -, hj, -⟩ := jump_balanced prog p _ hlen hbal hst hg
      exact ⟨s, m + 1, by rw [exec_open_zero _ _ _ hf hd hv, hj]; rfl⟩
    · exact ⟨_, _, exec_open_nonzero _ _ _ hf hd hv⟩
  · cases hl : s.loop_stack with
    | nil =>
      rw [hl] at hst
      have hnone := openStack_close_nil hst hg
      unfold Balanced at hbal
      obtain ⟨st0, h0⟩ := openStack_isSome_of_le hbal (p + 1) (by omega)
      rw [hnone] at h0
      simp at h0
    | cons q rest =>
      by_cases hv : s.array s.data = 0
      · exact ⟨_, _, by rw [exec_close_zero _ _ _ hf hd hv, hl]⟩
      · exact ⟨_, _, by rw [exec_close_nonzero _ _ _ hf hd hv, hl]⟩

/-- C15: tape cells are mutated only by cell arithmetic and input.  For every
state with an in-range data pointer and every offset `p` of the text: `exec`
on `+` (on `-`) changes the current cell by +1 (by -1) modulo 256 and leaves
every other cell and the data pointer unchanged; `exec` on `,` leaves every
cell but the current one unchanged; `exec` on `>`, `<`, `.` leaves every cell
unchanged; and whatever state `exec` on `[` or `]` returns has every cell and
the data pointer unchanged, which `exec` does return in every state that the
run of a balanced program passes through. -/
theorem exec_tape_frame (prog : List Char) (s : State) (p : Nat) (c : Char)
    (hp : prog[p]? = some c) (hd : s.data < s.size) :
    (c = '+' → ∃ t, exec prog s p = .ok (t, p + 1) ∧
        t.array s.data = (s.array s.data + 1) % 256 ∧
        (∀ i, i ≠ s.data → t.array i = s.array i) ∧ t.data = s.data) ∧
      (c = '-' → ∃ t, exec prog s p = .ok (t, p + 1) ∧
        (t.array s.data : Int) = ((s.array s.data : Int) - 1) % 256 ∧
        (∀ i, i ≠ s.data → t.array i = s.array i) ∧ t.data = s.data) ∧
      (c = ',' → ∃ t, exec prog s p = .ok (t, p + 1) ∧
        (∀ i, i ≠ s.data → t.array i = s.array i) ∧ t.data = s.data) ∧
      (c = '>' ∨ c = '<' ∨ c = '.' →
        ∃ t, exec prog s p = .ok (t, p + 1) ∧ t.array = s.array) ∧
      (c = '[' ∨ c = ']' → exec prog s p ≠ .timeout ∧
        (∀ t ip1, exec prog s p = .ok (t, ip1) → t.array = s.array ∧ t.data = s.data) ∧
        (prog.length < UINT → Balanced prog → (∃ input, Reachable prog input s p) →
          ∃ t ip1, exec prog s p = .ok (t, ip1) ∧ t.array = s.array ∧ t.data = s.data)) := by
  have hf := fetch_of_getElem? hp
  refine ⟨?_, ?_, ?_, ?_, ?_⟩
  · rintro rfl
    refine ⟨s.store ((s.array s.data + 1) % 256), ?_, ?_, ?_, rfl⟩
    · rw [exec_incr _ _ _ hf]
      simp [State.incr_data, cell_of_lt hd, Result.bind]
    · simp [State.store]
    · intro i hi
      simp [State.store, hi]
  · rintro rfl
    refine ⟨s.store ((s.array s.data + 255) % 256), ?_, ?_, ?_, rfl⟩
    · rw [exec_decr _ _ _ hf]
      simp [State.decr_data, cell_of_lt hd, Result.bind]
    · have e : (s.store ((s.array s.data + 255) % 256)).array s.data =
          (s.array s.data + 255) % 256 := by simp [State.store]
      rw [e]
      omega
    · intro i hi
      simp [State.store, hi]
  · rintro rfl
    refine ⟨{ s.store (toCell (getchar s.stdin).1) with stdin := (getchar s.stdin).2 },
      ?_, ?_, rfl⟩
    · rw [exec_input _ _ _ hf]
      simp [State.input, cell_of_lt hd, Result.bind]
    · intro i hi
      simp [State.store, hi]
  · rintro (rfl | rfl | rfl)
    · refine ⟨s.next_cell, exec_next _ _ _ hf, ?_⟩
      unfold State.next_cell; split <;> rfl
    · refine ⟨s.prev_cell, exec_prev _ _ _ hf, ?_⟩
      unfold State.prev_cell; split <;> rfl
    · refine ⟨{ s with stdout := s.stdout ++ [s.array s.data] }, ?_, rfl⟩
      rw [exec_output _ _ _ hf]
      simp [State.output, cell_of_lt hd, Result.bind]
  · intro hc
    have hframe : ∀ t ip1, exec prog s p = .ok (t, ip1) →
        t.array = s.array ∧ t.data = s.data := ?_
    · refine ⟨exec_ne_timeout prog s p, hframe, ?_⟩
      rintro hlen hbal ⟨input, hr⟩
      obtain ⟨t, ip1, hx⟩ := exec_bracket_ok_of_StackInv prog s p c hlen hbal
        (reachable_StackInv prog input hlen hbal s p hr) hp hc hd
      exact ⟨t, ip1, hx, hframe t ip1 hx⟩
    intro t ip1 h
    by_cases hv : s.array s.data = 0
    · rcases hc with rfl | rfl
      · rw [exec_open_zero _ _ _ hf hd hv] at h
        cases hj : jump prog p with
        | ok r =>
          rw [hj] at h
          simp only [Result.bind, Result.ok.injEq, Prod.mk.injEq] at h
          obtain ⟨rfl, -⟩ := h
          exact ⟨rfl, rfl⟩
        | undef => rw [hj] at h; simp [Result.bind] at h
        | timeout => rw [hj] at h; simp [Result.bind] at h
      · rw [exec_close_zero _ _ _ hf hd hv] at h
        cases hl : s.loop_stack with
        | nil => rw [hl] at h; simp at h
        | cons q r =>
          rw [hl] at h
          simp only [Result.ok.injEq, Prod.mk.injEq] at h
          obtain ⟨rfl, -⟩ := h
          exact ⟨rfl, rfl⟩
    · rcases hc with rfl | rfl
      · rw [exec_open_nonzero _ _ _ hf hd hv] at h
        simp only [Result.ok.injEq, Prod.mk.injEq] at h
        obtain ⟨rfl, -⟩ := h
        exact ⟨rfl, rfl⟩
      · rw [exec_close_nonzero _ _ _ hf hd hv] at h
        cases hl : s.loop_stack with
        | nil => rw [hl] at h; simp at h
        | cons q r =>
          rw [hl] at h
          simp only [Result.ok.injEq, Prod.mk.injEq] at h
          obtain ⟨rfl, -⟩ := h
          exact ⟨rfl, rfl⟩

theorem exec_tape_frame_witness :
    "-".toList[0]? = some '-' ∧ (State.init 30000 []).data < (State.init 30000 []).size ∧
      ∃ t, exec "-".toList (State.init 30000 []) 0 = .ok (t, 0 + 1) ∧
        (t.array (State.init 30000 []).data : Int) =
          (((State.init 30000 []).array (State.init 30000 []).data : Int) - 1) % 256 ∧
        (∀ i, i ≠ (State.init 30000 []).data → t.array i = (State.init 30000 []).array i) ∧
        t.data = (State.init 30000 []).data :=
  ⟨by decide, by decide,
    (exec_tape_frame "-".toList (State.init 30000 []) 0 '-' (by decide) (by decide)).2.1 rfl⟩

end Bfc
